import Mathlib

/-!
Verification of the BingX trading-bot core (TVTelegramBingX).

This file shallowly embeds the TypeScript sources
  src/exchange/bingx/contracts.ts      (contract-filter normalization)
  src/exchange/bingx/errors.ts         (canonical error formatting)
  src/exchange/bingx/accountClient.ts  (request signing, signature redaction)
  src/exchange/bingx/constants.ts      (endpoint paths)
  src/features/report/report.ts        (envelope classification, report fetch)
  and the signal-message builder (buildSignalMessage)
into Lean and proves the specified properties about them.

Modelling conventions:
* JavaScript strings are modelled as `List Char` (`Str`).
* JavaScript numbers are modelled exactly: a finite number is a pair
  `Dec = ⟨man, exp⟩` denoting the rational `man / 10 ^ exp`, together with
  distinguished `NaN` and `±Infinity` values (`JNum`).  All values that the
  embedded code ever manufactures are decimal rationals, so this value space
  is closed under every operation the code performs.  IEEE-754 rounding,
  overflow and underflow are not modelled: numbers are exact.
* `Number(string)` follows the ECMAScript StringNumericLiteral grammar
  (whitespace trimming, signs, Infinity, hex/octal/binary prefixes, decimal
  mantissa with optional exponent); `Number.prototype.toString` follows the
  ECMAScript Number-to-String algorithm (positional notation for decimal
  exponents in (-7, 21], scientific notation outside that range).
* Asynchronous network calls are modelled by passing the transport as an
  explicit oracle `Str → Option Str → Except Str Json`.
* `process.env` defaults are taken as written in the sources (environment
  variables unset).
-/

set_option maxRecDepth 8192

/-! Strings as character lists. -/

abbrev Str := List Char

/-! Decimal digits. -/

def digitChar (n : Nat) : Char :=
  match n with
  | 0 => '0' | 1 => '1' | 2 => '2' | 3 => '3' | 4 => '4'
  | 5 => '5' | 6 => '6' | 7 => '7' | 8 => '8' | _ => '9'

/-- Numeric value of a list of decimal digit characters (most significant
first), as read by the ECMAScript numeric-literal grammar. -/
def digitsToNat (cs : Str) : Nat :=
  cs.foldl (fun a c => 10 * a + (c.toNat - 48)) 0

/-- Decimal digit string of a natural number, fuelled so that the
definition is structural (hence kernel-computable). -/
def natToDigitsF : Nat → Nat → Str
  | 0, _ => []
  | f + 1, n => if n < 10 then [digitChar n] else natToDigitsF f (n / 10) ++ [digitChar (n % 10)]

def natToDigits (n : Nat) : Str := natToDigitsF (n + 1) n

/-- Digit string of an integer (BigInt.prototype.toString). -/
def intToDigits (i : Int) : Str :=
  if i < 0 then '-' :: natToDigits (-i).toNat else natToDigits i.toNat

/-! Exact JavaScript numbers. -/

/-- An exact decimal number: `man / 10 ^ exp`. -/
structure Dec where
  man : Int
  exp : Nat
deriving DecidableEq, Repr

/-- The rational value denoted by a `Dec`.  Used in statements only. -/
def Dec.val (v : Dec) : ℚ := (v.man : ℚ) / 10 ^ v.exp

/-- Remove factors of ten shared between mantissa and exponent. -/
def canonAux : Nat → Int → Dec
  | 0, m => ⟨m, 0⟩
  | k + 1, m => if m % 10 = 0 then canonAux k (m / 10) else ⟨m, k + 1⟩

def canon (v : Dec) : Dec := canonAux v.exp v.man

/-- A `Dec` is canonical when its mantissa is not a multiple of ten
(or its exponent is zero). -/
def Dec.canonical (v : Dec) : Prop := v.exp = 0 ∨ ¬ (10:Int) ∣ v.man

/-- A JavaScript number: NaN, a signed infinity, or a finite exact decimal. -/
inductive JNum where
  | nan : JNum
  | inf (neg : Bool) : JNum
  | fin (v : Dec) : JNum
deriving DecidableEq, Repr

/-- Math.trunc (truncation toward zero) of a finite number. -/
def jsTrunc (v : Dec) : Int :=
  if 0 ≤ v.man then ((v.man.toNat / 10 ^ v.exp : Nat) : Int)
  else -(((-v.man).toNat / 10 ^ v.exp : Nat) : Int)

/-! Number-to-string (ECMAScript Number::toString, base 10). -/

/-- Multiplicity of ten in a positive natural number (fuelled). -/
def mult10F : Nat → Nat → Nat
  | 0, _ => 0
  | f + 1, m => if m % 10 = 0 && m != 0 then mult10F f (m / 10) + 1 else 0

def mult10 (m : Nat) : Nat := mult10F m m

/-- Render `d * 10 ^ e` (with `d` positive, not a multiple of ten) following
the ECMAScript Number-to-String notation rules: positional digits when the
decimal-point position lies in (-6, 21], scientific notation otherwise. -/
def renderDE (d : Nat) (e : Int) : Str :=
  let s := natToDigits d
  let len : Int := s.length
  let np : Int := len + e
  if 0 ≤ e ∧ np ≤ 21 then s ++ List.replicate e.toNat '0'
  else if 0 < np ∧ np ≤ 21 then s.take np.toNat ++ '.' :: s.drop np.toNat
  else if -6 < np ∧ np ≤ 0 then '0' :: '.' :: (List.replicate (-np).toNat '0' ++ s)
  else
    match s with
    | [] => []
    | c :: rest =>
      (c :: (if rest.isEmpty then [] else '.' :: rest)) ++
        (if 0 < np then 'e' :: '+' :: natToDigits (np - 1).toNat
         else 'e' :: '-' :: natToDigits (1 - np).toNat)

/-- Render a positive finite number. -/
def renderPos (v : Dec) : Str :=
  let m := v.man.toNat
  let z := mult10 m
  renderDE (m / 10 ^ z) ((z : Int) - (v.exp : Int))

/-- Number.prototype.toString for the exact number model. -/
def jsNumToString (j : JNum) : Str :=
  match j with
  | .nan => "NaN".toList
  | .inf neg => if neg then "-Infinity".toList else "Infinity".toList
  | .fin v =>
    if v.man = 0 then ['0']
    else if v.man < 0 then '-' :: renderPos ⟨-v.man, v.exp⟩
    else renderPos v

/-! String-to-number (ECMAScript StringNumericLiteral). -/

/-- ECMAScript whitespace and line terminators (the set trimmed by
String.prototype.trim and by Number conversion). -/
def isWSch (c : Char) : Bool :=
  c.toNat = 32 || c.toNat = 9 || c.toNat = 10 || c.toNat = 13 ||
  c.toNat = 11 || c.toNat = 12 || c.toNat = 160 ||
  c.toNat = 0x2028 || c.toNat = 0x2029 || c.toNat = 0xFEFF

def trimWS (cs : Str) : Str :=
  ((cs.dropWhile isWSch).reverse.dropWhile isWSch).reverse

/-- Decimal digit character, by code point. -/
def isDigitCh (c : Char) : Bool := 48 ≤ c.toNat && c.toNat ≤ 57

/-- Decimal mantissa with optional fraction and optional exponent; returns
the exact value as a canonical `Dec`, or `none` when the text is not a
complete decimal literal. -/
def parseDecCore (cs : Str) : Option Dec :=
  let ip := cs.takeWhile isDigitCh
  let r1 := cs.dropWhile isDigitCh
  let fpr : Str × Str :=
    if r1.head? = some '.' then (r1.tail.takeWhile isDigitCh, r1.tail.dropWhile isDigitCh)
    else ([], r1)
  let fp := fpr.1
  let r2 := fpr.2
  if ip.isEmpty && fp.isEmpty then none
  else
    let m0 : Nat := digitsToNat ip * 10 ^ fp.length + digitsToNat fp
    let k0 : Nat := fp.length
    match r2 with
    | [] => some (canon ⟨(m0 : Int), k0⟩)
    | c :: t =>
      if c = 'e' || c = 'E' then
        let sp : Bool × Str :=
          if t.head? = some '+' then (false, t.tail)
          else if t.head? = some '-' then (true, t.tail)
          else (false, t)
        let ed := sp.2.takeWhile isDigitCh
        let r3 := sp.2.dropWhile isDigitCh
        if ed.isEmpty || !r3.isEmpty then none
        else
          let e := digitsToNat ed
          if sp.1 then some (canon ⟨(m0 : Int), k0 + e⟩)
          else if e ≤ k0 then some (canon ⟨(m0 : Int), k0 - e⟩)
          else some (canon ⟨(m0 : Int) * (10 : Int) ^ (e - k0), 0⟩)
      else none

def jsNegate (j : JNum) : JNum :=
  match j with
  | .nan => .nan
  | .inf b => .inf (!b)
  | .fin v => .fin ⟨-v.man, v.exp⟩

def parseUnsigned (cs : Str) : JNum :=
  if cs = "Infinity".toList then .inf false
  else
    match parseDecCore cs with
    | some v => .fin v
    | none => .nan

def parseSigned (t : Str) : JNum :=
  match t with
  | [] => parseUnsigned []
  | c :: u =>
    if c = '+' then parseUnsigned u
    else if c = '-' then jsNegate (parseUnsigned u)
    else parseUnsigned (c :: u)

def radixDigVal (base : Nat) (c : Char) : Option Nat :=
  let n := c.toNat
  let v : Option Nat :=
    if 48 ≤ n ∧ n ≤ 57 then some (n - 48)
    else if 97 ≤ n ∧ n ≤ 102 then some (n - 87)
    else if 65 ≤ n ∧ n ≤ 70 then some (n - 55)
    else none
  match v with
  | some d => if d < base then some d else none
  | none => none

def parseRadix (base : Nat) (ds : Str) : JNum :=
  if ds.isEmpty || !(ds.all (fun c => (radixDigVal base c).isSome)) then .nan
  else .fin ⟨(ds.foldl (fun a c => base * a + (radixDigVal base c).getD 0) 0 : Nat), 0⟩

def startsRadix (t : Str) (cl cu : Char) : Bool :=
  match t with
  | c0 :: c :: _ => c0 = '0' && (c = cl || c = cu)
  | _ => false

def parseNumeric (t : Str) : JNum :=
  if startsRadix t 'x' 'X' then parseRadix 16 (t.drop 2)
  else if startsRadix t 'o' 'O' then parseRadix 8 (t.drop 2)
  else if startsRadix t 'b' 'B' then parseRadix 2 (t.drop 2)
  else parseSigned t

/-- The Number(string) conversion. -/
def jsParse (cs : Str) : JNum :=
  let t := trimWS cs
  if t.isEmpty then .fin ⟨0, 0⟩ else parseNumeric t

/-! Primitive JavaScript values, as they occur in the raw contract
mappings (Record fields of type unknown).  Absent fields and fields whose
value is undefined are both modelled as the surrounding Option being none,
since the embedded code only ever tests them against undefined. -/

inductive JSValue where
  | num (j : JNum) : JSValue
  | str (s : Str) : JSValue
  | bigintv (i : Int) : JSValue
  | boolv (b : Bool) : JSValue
  | nullv : JSValue
deriving DecidableEq, Repr

/-- The Number(value) coercion on primitive values. -/
def jsToNumber (v : JSValue) : JNum :=
  match v with
  | .num j => j
  | .str s => jsParse s
  | .bigintv i => .fin ⟨i, 0⟩
  | .boolv b => .fin ⟨if b then 1 else 0, 0⟩
  | .nullv => .fin ⟨0, 0⟩

/-! contracts.ts -/

/-- From contracts.ts, toDecimalString: undefined and null give undefined;
finite numbers are stringified; strings are trimmed and must be nonempty;
bigints are stringified; everything else gives undefined. -/
def toDecimalString (x : Option JSValue) : Option Str :=
  match x with
  | none => none
  | some .nullv => none
  | some (.num j) =>
    match j with
    | .fin v => some (jsNumToString (.fin v))
    | _ => none
  | some (.str s) =>
    let t := trimWS s
    if t.isEmpty then none else some t
  | some (.bigintv i) => some (intToDigits i)
  | some (.boolv _) => none

/-- A positive exact value at or beyond the binary64 rounding boundary:
the conversion to a double (which ECMAScript specifies as correctly
rounded, ties to even) yields +Infinity exactly when the value is at
least `2^1024 - 2^970`, the midpoint between the largest finite double
and `2^1024`. -/
def roundsToInf (v : Dec) : Bool :=
  ((2:Nat) ^ 1024 - 2 ^ 970) * 10 ^ v.exp ≤ v.man.toNat

/-- A positive exact value that the conversion to a double rounds to +0:
exactly when it is at most `2^-1075`, half the least subnormal (the tie
rounds to the even candidate, zero). -/
def roundsToZero (v : Dec) : Bool :=
  v.man.toNat * (2:Nat) ^ 1075 ≤ 10 ^ v.exp

/-- From contracts.ts, toPositiveDecimalString: the token must convert
(Number, a correctly rounded double conversion) to a finite double
strictly greater than zero — so values rounding to Infinity or
underflowing to +0 are rejected — and the result is that number
re-stringified.  Rendering convention: the model returns the exact
decimal rendering of the token's value, where the program returns the
shortest round-trip rendering of the nearest double; both strings denote
the number the downstream code re-parses. -/
def toPositiveDecimalString (x : Option JSValue) : Option Str :=
  match toDecimalString x with
  | none => none
  | some token =>
    if token.isEmpty then none
    else
      match jsParse token with
      | .fin v =>
        if 0 < v.man && !roundsToInf v && !roundsToZero v then
          some (jsNumToString (.fin v))
        else none
      | _ => none

/-- From contracts.ts, pow10: throws on non-finite or negative input;
returns "1" for zero; otherwise stringifies `1 / Math.pow(10, n)` in
double arithmetic.  For `1 ≤ n ≤ 308` the power is a finite double and
the quotient stringifies as the decimal of `10 ^ -n` (exact rendering
convention as above); for `n ≥ 309` the power exceeds the binary64
boundary `2^1024 - 2^970`, `Math.pow` returns Infinity, `1 / Infinity`
is +0 and the function returns the string "0".  In the repository pow10
is only applied to Math.trunc results, so the argument is an integer;
the non-integer case (an irrational power in JavaScript) is modelled as
an error. -/
def pow10 (n : JNum) : Except Str Str :=
  match n with
  | .fin v0 =>
    let v := canon v0
    if v.man < 0 then
      .error ("pow10 expects a non-negative finite number, received ".toList ++ jsNumToString (.fin v0))
    else if v.man = 0 then .ok ['1']
    else if v.exp = 0 then
      if v.man ≤ 308 then .ok (jsNumToString (.fin ⟨1, v.man.toNat⟩)) else .ok ['0']
    else .error "pow10 applied to a non-integer".toList
  | j => .error ("pow10 expects a non-negative finite number, received ".toList ++ jsNumToString j)

/-- The string pow10 returns for a nonnegative integer argument: the
rendering of `10 ^ -n` below the overflow threshold, the string "0" at
and above it. -/
def pow10Str (n : Nat) : Str :=
  if n ≤ 308 then jsNumToString (.fin ⟨1, n⟩) else ['0']

/-- The raw exchange instrument metadata, restricted to the seven record
keys that normalizeContractFilters reads. -/
structure RawContract where
  stepSize : Option JSValue := none
  quantityPrecision : Option JSValue := none
  size : Option JSValue := none
  symbol : Option JSValue := none
  tradeMinQuantity : Option JSValue := none
  tickSize : Option JSValue := none
  pricePrecision : Option JSValue := none
deriving DecidableEq, Repr

/-- The NormalizedContractFilters record of contracts.ts. -/
structure NormalizedContractFilters where
  stepSize : Str
  minQty : Str
  tickSize : Str
  pricePrecision : Option Int := none
  quantityPrecision : Option Int := none
deriving DecidableEq, Repr

/-- Truthiness of a string-or-undefined value (false exactly for undefined
and the empty string). -/
def strTruthy (s : Option Str) : Bool :=
  match s with
  | none => false
  | some t => !t.isEmpty

/-- Models the repeated guard of normalizeContractFilters: Number the field,
keep it when finite and nonnegative, Math.trunc it. -/
def precisionOf (x : Option JSValue) : Option Int :=
  match x with
  | none => none
  | some w =>
    match jsToNumber w with
    | .fin v => if 0 ≤ v.man then some (jsTrunc v) else none
    | _ => none

def symbolToken (raw : RawContract) : Str :=
  match raw.symbol with
  | some (.str s) => s
  | _ => "<unknown>".toList

def missingStepMsg (sym : Str) : Str :=
  "missing stepSize/quantityPrecision/size in ".toList ++ sym

/-- From contracts.ts, normalizeContractFilters. -/
def normalizeContractFilters (raw : RawContract) : Except Str NormalizedContractFilters := do
  let step0 := toPositiveDecimalString raw.stepSize
  let sq : Option Str × Option Int ←
    if !strTruthy step0 then do
      let p := precisionOf raw.quantityPrecision
      let s1 : Option Str ←
        match p with
        | some n => do
          let t ← pow10 (.fin ⟨n, 0⟩)
          pure (some t)
        | none => pure step0
      let s2 :=
        if !strTruthy s1 && raw.size.isSome then toPositiveDecimalString raw.size else s1
      pure (s2, p)
    else
      pure (step0, precisionOf raw.quantityPrecision)
  if !strTruthy sq.1 then throw (missingStepMsg (symbolToken raw))
  else do
    let stepSize := sq.1.getD []
    let qp :=
      if sq.2.isNone && raw.quantityPrecision.isSome then precisionOf raw.quantityPrecision
      else sq.2
    let minQty := (toPositiveDecimalString raw.tradeMinQuantity).getD stepSize
    let tick0 := toPositiveDecimalString raw.tickSize
    let tp : Option Str × Option Int ←
      if !strTruthy tick0 then
        match precisionOf raw.pricePrecision with
        | some n => do
          let t ← pow10 (.fin ⟨n, 0⟩)
          pure (some t, some n)
        | none => pure (tick0, none)
      else
        pure (tick0, precisionOf raw.pricePrecision)
    let tickSize := if !strTruthy tp.1 then "0.01".toList else tp.1.getD []
    pure ⟨stepSize, minQty, tickSize, tp.2, qp⟩

/-- The output record of normalizeContractFilters viewed again as a raw
mapping: it carries keys stepSize, minQty, tickSize, pricePrecision and
quantityPrecision; of these, minQty is not among the keys the normalizer
reads, and symbol, size and tradeMinQuantity are absent. -/
def asRaw (f : NormalizedContractFilters) : RawContract where
  stepSize := some (.str f.stepSize)
  quantityPrecision := f.quantityPrecision.map (fun n => .num (.fin ⟨n, 0⟩))
  size := none
  symbol := none
  tradeMinQuantity := none
  tickSize := some (.str f.tickSize)
  pricePrecision := f.pricePrecision.map (fun n => .num (.fin ⟨n, 0⟩))

/-- Decidable equality for Except values, needed to evaluate the embedded
fallible operations on concrete inputs. -/
instance {e a : Type} [DecidableEq e] [DecidableEq a] : DecidableEq (Except e a) := fun x y =>
  match x, y with
  | .ok v, .ok w => if h : v = w then .isTrue (by rw [h]) else .isFalse (by simp [h])
  | .error v, .error w => if h : v = w then .isTrue (by rw [h]) else .isFalse (by simp [h])
  | .ok _, .error _ => .isFalse (by simp)
  | .error _, .ok _ => .isFalse (by simp)

/-! constants.ts (environment variables unset, so the defaults apply). -/

def BINGX_BASE : Str := "https://open-api.bingx.com".toList
def PATH_ORDER : Str := "/openApi/swap/v2/trade/order".toList
def PATH_USER_BALANCE : Str := "/openApi/swap/v2/user/balance".toList
def PATH_USER_POSITIONS : Str := "/openApi/swap/v2/user/positions".toList
def PATH_USER_OPEN_ORDERS : Str := "/openApi/swap/v2/user/openOrders".toList

/-! JSON (and undefined) values, as handled by the response-processing
code.  The undefined value is a first-class constructor, so an absent
object field is simply the jundef value.  Objects are restricted to the
four keys the embedded code observes (code, msg, message, data); array
contents are not observed by any embedded operation and are not
modelled. -/

inductive Json where
  | jundef : Json
  | jnull : Json
  | jnum (j : JNum) : Json
  | jstr (s : Str) : Json
  | jbool (b : Bool) : Json
  | jarr : Json
  | jobj (code msg message data : Json) : Json
deriving DecidableEq, Repr

/-- The String(value) conversion on JSON-or-undefined values. -/
def jsonToString (v : Json) : Str :=
  match v with
  | .jundef => "undefined".toList
  | .jnull => "null".toList
  | .jnum j => jsNumToString j
  | .jstr s => s
  | .jbool b => if b then "true".toList else "false".toList
  | .jarr => []
  | .jobj _ _ _ _ => "[object Object]".toList

/-- The nullish-coalescing operator: keep the left operand unless it is
undefined or null. -/
def jsCoalesce (a b : Json) : Json :=
  match a with
  | .jundef => b
  | .jnull => b
  | v => v

/-! errors.ts -/

def ciEqc (c d : Char) : Bool := c.toLower = d.toLower

/-- From errors.ts, normaliseMethod. -/
def normaliseMethod (method : Option Str) : Str :=
  let token := (trimWS (method.getD [])).map Char.toUpper
  if token.isEmpty then "GET".toList else token

/-- From errors.ts, normaliseTarget. -/
def normaliseTarget (url : Option Str) (path : Option Str) : Str :=
  match url with
  | some u => if u.length > 0 then u else fallbackTarget path
  | none => fallbackTarget path
where
  fallbackTarget (path : Option Str) : Str :=
    match path with
    | some p => if p.length > 0 then p else "<unknown>".toList
    | none => "<unknown>".toList

/-- A code or message token: undefined, null and values stringifying to the
empty string give the empty string, anything else its String form. -/
def detailToken (x : Json) : Str :=
  match x with
  | .jundef => []
  | .jnull => []
  | v => jsonToString v

/-- From errors.ts, extractDetails.  A payload is an object (never an
array), a string, or null/undefined. -/
def extractDetails (payload : Json) : Str × Str :=
  match payload with
  | .jobj code msg message _ => (detailToken code, detailToken (jsCoalesce msg message))
  | .jstr s => if (trimWS s).length > 0 then ([], s) else ([], [])
  | _ => ([], [])

/-- Remove a trailing run of slashes (the replace of the pattern
slash-run-at-end by the empty string). -/
def stripTrailingSlashes (cs : Str) : Str :=
  (cs.reverse.dropWhile (fun c => c = '/')).reverse

/-- Remove a leading scheme-and-host: case-insensitive http, an optional s,
then ://, then at least one character that is not a slash (the
case-insensitive anchored replace in errors.ts). -/
def stripSchemeHost (cs : Str) : Str :=
  match cs with
  | c1 :: c2 :: c3 :: c4 :: rest =>
    if ciEqc c1 'h' && ciEqc c2 't' && ciEqc c3 't' && ciEqc c4 'p' then
      match rest with
      | c5 :: rest2 =>
        if ciEqc c5 's' then (afterScheme rest2).getD cs else (afterScheme rest).getD cs
      | [] => cs
    else cs
  | _ => cs
where
  afterScheme (r : Str) : Option Str :=
    match r with
    | ':' :: '/' :: '/' :: rem =>
      let host := rem.takeWhile (fun c => c ≠ '/')
      if host.isEmpty then none else some (rem.dropWhile (fun c => c ≠ '/'))
    | _ => none

def bingxHintText : Str :=
  '\n' :: "Hint: use POST ".toList ++ BINGX_BASE ++ PATH_ORDER ++ " with x-www-form-urlencoded.".toList

/-- From errors.ts, formatBingxError. -/
def formatBingxError (method url : Option Str) (payload : Json)
    (requestPath : Option Str) : Str :=
  let methodToken := normaliseMethod method
  let target := normaliseTarget url requestPath
  let cm := extractDetails payload
  let detail := trimWS (cm.1 ++ ' ' :: cm.2)
  let output := "Failed to contact BingX: ".toList ++ methodToken ++ ' ' :: target
  let output := if detail.length > 0 then output ++ " → ".toList ++ detail else output
  let pathForHint := stripTrailingSlashes (requestPath.getD (url.getD []))
  let normalisedPath := stripSchemeHost pathForHint
  if normalisedPath = PATH_ORDER then output ++ bingxHintText else output

/-! report.ts -/

/-- From report.ts, assertSuccess together with the isEnvelope guard: the
code field succeeds when it is absent, null, the number zero or the string
zero; otherwise the envelope is a business failure described by
msg, else message, else the String form of code. -/
def assertSuccess (endpoint : Str) (payload : Json) : Except Str Json :=
  match payload with
  | .jobj code msg message data =>
    if codeSucceeds code then .ok (.jobj code msg message data)
    else
      let description := jsCoalesce msg (jsCoalesce message (.jstr (jsonToString code)))
      .error (endpoint ++ " error: ".toList ++ jsonToString description)
  | _ => .error (endpoint ++ " returned an invalid response".toList)
where
  codeSucceeds (c : Json) : Bool :=
    match c with
    | .jundef => true
    | .jnull => true
    | .jnum (.fin d) => d.man == 0
    | .jstr s => s == ['0']
    | _ => false

/-- From accountClient.ts, safeJson: the parsed body, or null when parsing
throws.  The parse outcome is supplied as an Option. -/
def safeJson (parsed : Option Json) : Json := parsed.getD .jnull

def jsonData (j : Json) : Json :=
  match j with
  | .jobj _ _ _ d => d
  | _ => .jundef

structure ReportSnapshot where
  balance : Json
  positions : Json
  openOrders : Json := .jundef
deriving DecidableEq, Repr

/-- The body of the try block guarding the open-orders request in
fetchReport. -/
def openOrdersStep (net : Str → Option Str → Except Str Json) (symbol : Option Str) :
    Except Str Json := do
  let r ← net PATH_USER_OPEN_ORDERS symbol
  let env ← assertSuccess "open orders".toList r
  pure (jsCoalesce (jsonData env) .jnull)

/-- From report.ts, fetchReport.  The network boundary (getSigned followed
by body parsing) is an oracle from the path and the optional symbol
parameter to either a transport error or the parsed JSON body. -/
def fetchReport (net : Str → Option Str → Except Str Json) (symbol : Option Str)
    (includeOpenOrders : Bool) : Except Str ReportSnapshot := do
  let balanceJson ← net PATH_USER_BALANCE none
  let positionsJson ← net PATH_USER_POSITIONS symbol
  let balanceEnvelope ← assertSuccess "balance".toList balanceJson
  let positionsEnvelope ← assertSuccess "positions".toList positionsJson
  let openOrdersData : Json :=
    if includeOpenOrders then
      match openOrdersStep net symbol with
      | .ok v => v
      | .error _ => .jundef
    else .jundef
  pure ⟨jsCoalesce (jsonData balanceEnvelope) .jnull,
    jsCoalesce (jsonData positionsEnvelope) .jnull, openOrdersData⟩

/-! accountClient.ts -/

/-- String(value) on the string-or-number-or-undefined parameter values of
getSigned (undefined entries are filtered out before conversion). -/
def jsValueToString (v : JSValue) : Str :=
  match v with
  | .num j => jsNumToString j
  | .str s => s
  | .bigintv i => intToDigits i
  | .boolv b => if b then "true".toList else "false".toList
  | .nullv => "null".toList

/-- From accountClient.ts, normaliseParams: drop undefined entries and
stringify the rest.  A JavaScript object literal is modelled as an
association list whose keys are distinct. -/
def normaliseParams (params : List (Str × Option JSValue)) : List (Str × Str) :=
  (params.filter (fun kv => kv.2.isSome)).map (fun kv => (kv.1, jsValueToString (kv.2.getD .nullv)))

/-- From accountClient.ts, signQuery: sort the keys lexicographically, join
the key=value pairs with ampersands, and append the hex HMAC-SHA256
signature of that string under the account secret.  The HMAC itself is a
cryptographic primitive from node:crypto and enters the model as the
function argument hmacHex. -/
def signQuery (hmacHex : Str → Str → Str) (secret : Str) (params : List (Str × Str)) : Str :=
  let sortedKeys := (params.map Prod.fst).insertionSort (fun a b => a ≤ b)
  let query := List.intercalate ['&'] (sortedKeys.map (fun k => k ++ '=' :: ((params.lookup k).getD [])))
  query ++ "&signature=".toList ++ hmacHex secret query

/-- Hexadecimal digit, case-insensitively (the regex character class 0-9a-f
under the i flag). -/
def isHexDig (c : Char) : Bool :=
  let n := c.toLower.toNat
  (48 ≤ n && n ≤ 57) || (97 ≤ n && n ≤ 102)

/-- Case-insensitive pattern matching: strip the pattern from the front of
the input, comparing characters after toLower. -/
def dropCI : Str → Str → Option Str
  | [], cs => some cs
  | _ :: _, [] => none
  | p :: ps, c :: cs => if c.toLower = p.toLower then dropCI ps cs else none

def sigPat : Str := "signature=".toList

def redactedChunk : Str := "signature=<redacted>".toList

/-- Match the redaction regex (signature= followed by at least one hex
digit, case-insensitively) at the start of the input; on success return
the input after the maximal hex-digit run. -/
def tryMatch (cs : Str) : Option Str :=
  match dropCI sigPat cs with
  | some (d :: r) => if isHexDig d then some ((d :: r).dropWhile isHexDig) else none
  | _ => none

theorem dropCI_length {p cs r : Str} (h : dropCI p cs = some r) :
    r.length + p.length = cs.length := by
  induction p generalizing cs with
  | nil => simp [dropCI] at h; simp [h]
  | cons x xs ih =>
    cases cs with
    | nil => simp [dropCI] at h
    | cons c ct =>
      by_cases hc : c.toLower = x.toLower
      · simp [dropCI, hc] at h
        have := ih h
        simp [List.length_cons]
        omega
      · simp [dropCI, hc] at h

theorem dropWhile_length_le (p : Char → Bool) (l : Str) :
    (l.dropWhile p).length ≤ l.length := by
  induction l with
  | nil => simp [List.dropWhile]
  | cons c t ih =>
    by_cases hc : p c
    · simp [List.dropWhile, hc]; omega
    · simp [List.dropWhile, hc]

theorem tryMatch_length {cs rest : Str} (h : tryMatch cs = some rest) :
    rest.length < cs.length := by
  unfold tryMatch at h
  cases hd : dropCI sigPat cs with
  | none => simp [hd] at h
  | some r0 =>
    cases r0 with
    | nil => simp [hd] at h
    | cons d r =>
      simp [hd] at h
      rcases h with ⟨hhex, hrest⟩
      have hlen := dropCI_length hd
      have : rest.length ≤ r.length := by
        rw [← hrest]
        simp only [List.dropWhile, hhex]
        exact dropWhile_length_le isHexDig r
      simp [sigPat, List.length_cons] at hlen
      omega

/-- From accountClient.ts, redactSignature: the global case-insensitive
replace of signature= followed by a hex-digit run with the literal
signature=<redacted>.  Scans left to right; on a match the matched text is
replaced and scanning resumes after it, otherwise one character is kept. -/
def redactSignature (cs : Str) : Str :=
  match h : tryMatch cs with
  | some rest => redactedChunk ++ redactSignature rest
  | none =>
    match cs with
    | [] => []
    | c :: t => c :: redactSignature t
termination_by cs.length
decreasing_by
  · exact tryMatch_length h
  · simp

/-- An occurrence of the redaction pattern (signature= followed by a hex
digit, case-insensitively) anywhere in the string. -/
def hasSigMatch : Str → Bool
  | [] => false
  | c :: t => (tryMatch (c :: t)).isSome || hasSigMatch t

/-- Case-insensitive synchronisation between a string and its redacted
form, up to a depth: within the depth the two either agree character by
character after toLower, or the redacted side has reached the literal <
of an inserted redaction marker, or both have ended. -/
def chunkSafe : Nat → Str → Str → Prop
  | 0, _, _ => True
  | n + 1, a, b =>
    (a = [] ∧ b = []) ∨
    (∃ tb, b = '<' :: tb) ∨
    (∃ ca cb ta tb, a = ca :: ta ∧ b = cb :: tb ∧ ca.toLower = cb.toLower ∧ chunkSafe n ta tb)

def RECV_WINDOW : Str := "5000".toList

/-- The pure request-construction core of getSigned: inject recvWindow and
the timestamp, normalise and sign the parameters, build the request URL,
and the redacted URL that is logged.  Returns (sent URL, logged URL). -/
def getSignedCore (hmacHex : Str → Str → Str) (secret : Str) (path : Str)
    (params : List (Str × Option JSValue)) (now : Dec) : Str × Str :=
  let baseParams := normaliseParams (params ++
    [("recvWindow".toList, some (.str RECV_WINDOW)), ("timestamp".toList, some (.num (.fin now)))])
  let queryString := signQuery hmacHex secret baseParams
  let url := BINGX_BASE ++ path ++ '?' :: queryString
  (url, redactSignature url)

/-! The Telegram signal-message builder (buildSignalMessage). -/

/-- A date, by the local-time getters the builder reads; month0 is the
zero-based getMonth value. -/
structure JSDate where
  year : Int
  month0 : Nat
  day : Nat
  hour : Nat
  minute : Nat
  second : Nat
deriving DecidableEq, Repr

def pad2 (n : Nat) : Str :=
  let s := natToDigits n
  if s.length < 2 then '0' :: s else s

/-- From the builder, tsStr: local-time timestamp rendering. -/
def tsStr (d : JSDate) : Str :=
  intToDigits d.year ++ '-' :: pad2 (d.month0 + 1) ++ '-' :: pad2 d.day ++
    ' ' :: pad2 d.hour ++ ':' :: pad2 d.minute ++ ':' :: pad2 d.second

/-- From the builder, emojiAndTitle. -/
def emojiAndTitle (intent : Str) : Str × Str :=
  let up := intent.map Char.toUpper
  if up = "LONG_OPEN".toList then ("🟢".toList, "Buy".toList)
  else if up = "SHORT_OPEN".toList then ("🔴".toList, "Sell".toList)
  else if up = "LONG_CLOSE".toList then ("⚪".toList, "Close Long".toList)
  else if up = "SHORT_CLOSE".toList then ("⚫".toList, "Close Short".toList)
  else ("⚪".toList, "Signal".toList)

def autoTradeStr (b : Bool) : Str := if b then "On".toList else "Off".toList

/-- Round half away from zero at ten fractional digits and render with a
fixed number of decimals: Number.prototype.toFixed(10), on the exact
number model (values of magnitude at least 1e21 fall back to toString). -/
def toFixed10 (j : JNum) : Str :=
  match j with
  | .nan => "NaN".toList
  | .inf neg => if neg then "-Infinity".toList else "Infinity".toList
  | .fin v =>
    let m := v.man.natAbs
    if m ≥ 10 ^ (21 + v.exp) then jsNumToString j
    else
      let n : Nat :=
        if v.exp ≤ 10 then m * 10 ^ (10 - v.exp)
        else (m + 10 ^ (v.exp - 10) / 2) / 10 ^ (v.exp - 10)
      let s := natToDigits n
      let s := List.replicate (11 - s.length) '0' ++ s
      let signPart : Str := if v.man < 0 then ['-'] else []
      signPart ++ s.take (s.length - 10) ++ '.' :: s.drop (s.length - 10)

/-- First replace of formatNumber: a dot followed only by zeros up to the
end of the string is removed (leftmost such dot). -/
def stripDotAllZeros : Str → Str
  | [] => []
  | '.' :: t =>
    if !t.isEmpty && t.all (fun c => c = '0') then [] else '.' :: stripDotAllZeros t
  | c :: t => c :: stripDotAllZeros t

/-- Second replace of formatNumber: when a dot is followed only by digits
and the string ends in a zero run, that zero run is dropped. -/
def stripTrailZeros : Str → Str
  | [] => []
  | '.' :: t =>
    if t.all isDigitCh && t.getLast? = some '0' then
      '.' :: (t.reverse.dropWhile (fun c => c = '0')).reverse
    else '.' :: stripTrailZeros t
  | c :: t => c :: stripTrailZeros t

/-- Third replace of formatNumber: a trailing dot is removed. -/
def stripTrailDot (cs : Str) : Str :=
  if cs.getLast? = some '.' then cs.dropLast else cs

/-- A number-or-string input of formatNumber. -/
inductive NumOrStr where
  | num (j : JNum) : NumOrStr
  | str (s : Str) : NumOrStr
deriving DecidableEq, Repr

/-- From the builder, formatNumber. -/
def formatNumber (x : NumOrStr) : Str :=
  match x with
  | .str s => s
  | .num j => stripTrailDot (stripTrailZeros (stripDotAllZeros (toFixed10 j)))

def startsWithStr : Str → Str → Bool
  | [], _ => true
  | _ :: _, [] => false
  | a :: as1, b :: bs => a = b && startsWithStr as1 bs

/-- String.prototype.includes. -/
def jsIncludes (needle : Str) : Str → Bool
  | [] => startsWithStr needle []
  | c :: t => startsWithStr needle (c :: t) || jsIncludes needle t

/-- The options record of buildSignalMessage; optional fields hold their
declared defaults when absent. -/
structure SignalOpts where
  symbol : Str
  intent : Str
  orderType : Option Str := none
  positionSide : Option Str := none
  autoTrade : Option Bool := none
  leverage : Option JNum := none
  marginUSDT : Option JNum := none
  quantity : Option Str := none
  reduceOnly : Option Bool := none
  timestamp : Option JSDate := none

/-- From the builder, buildSignalMessage, as the list of lines it joins;
the current time (for an absent timestamp) is an explicit argument. -/
def buildSignalLines (opts : SignalOpts) (now : JSDate) : List Str :=
  let orderType := opts.orderType.getD "Market".toList
  let positionSide := opts.positionSide.getD "LONG".toList
  let autoTrade := opts.autoTrade.getD false
  let reduceOnly := opts.reduceOnly.getD false
  let et := emojiAndTitle opts.intent
  [et.1 ++ " SIGNAL - ".toList ++ et.2,
   "------------------------".toList,
   "Asset: ".toList ++ opts.symbol] ++
  (match opts.marginUSDT with
   | some m => ["Margin: ".toList ++ formatNumber (.num m) ++ " USDT".toList]
   | none =>
     match opts.quantity with
     | some q => if q.isEmpty then [] else ["Quantity: ".toList ++ q]
     | none => []) ++
  (match opts.leverage with
   | some l => ["Leverage: ".toList ++ formatNumber (.num l) ++ ['x']]
   | none => []) ++
  ["Auto-trade: ".toList ++ autoTradeStr autoTrade] ++
  [if jsIncludes "CLOSE".toList opts.intent then
     "Exit Type: ".toList ++ orderType ++ (if reduceOnly then " (Reduce Only)".toList else [])
   else "Entry Type: ".toList ++ orderType] ++
  ["Position Side: ".toList ++ positionSide,
   "Timestamp: ".toList ++ tsStr (opts.timestamp.getD now)]

def buildSignalMessage (opts : SignalOpts) (now : JSDate) : Str :=
  List.intercalate ['\n'] (buildSignalLines opts now)

/-! Claim-side definitions: closed forms and spec-worded variants used in
the theorem statements. -/

/-- The canonical pair denoting `d * 10 ^ e`. -/
def canonDE (d : Nat) (e : Int) : Dec :=
  if 0 ≤ e then ⟨(d : Int) * (10 : Int) ^ e.toNat, 0⟩ else ⟨(d : Int), (-e).toNat⟩

/-- The stepSize tiers of normalizeContractFilters as a closed form: a
positive explicit stepSize field first; otherwise the pow10 string of the
finite nonnegative quantityPrecision truncated toward zero; otherwise a
positive size field; otherwise an error naming the symbol. -/
def stepChoice (raw : RawContract) : Except Str Str :=
  match toPositiveDecimalString raw.stepSize with
  | some s => .ok s
  | none =>
    match precisionOf raw.quantityPrecision with
    | some n => .ok (pow10Str n.toNat)
    | none =>
      match toPositiveDecimalString raw.size with
      | some s => .ok s
      | none => .error (missingStepMsg (symbolToken raw))

/-- The tickSize tiers of normalizeContractFilters as a closed form: an
explicit positive tickSize, else the pow10 string of the finite
nonnegative pricePrecision, else the default 0.01. -/
def tickChoice (raw : RawContract) : Str :=
  (toPositiveDecimalString raw.tickSize).getD
    (match precisionOf raw.pricePrecision with
     | some n => pow10Str n.toNat
     | none => "0.01".toList)

/-- The error text of formatBingxError without the routing hint, as worded
in the specification: METHOD, target URL, then an arrow and the code and
message detail when the detail is nonempty. -/
def bingxErrorCore (method url : Option Str) (payload : Json) (requestPath : Option Str) : Str :=
  let methodToken := normaliseMethod method
  let target := normaliseTarget url requestPath
  let cm := extractDetails payload
  let detail := trimWS (cm.1 ++ ' ' :: cm.2)
  let base := "Failed to contact BingX: ".toList ++ methodToken ++ ' ' :: target
  if detail.length > 0 then base ++ " → ".toList ++ detail else base

/-- The normalised request path whose comparison against the trade-order
path decides whether the routing hint is appended: requestPath, else url,
else the empty string, with trailing slashes stripped and a leading
scheme-and-host prefix removed. -/
def hintPathOf (url requestPath : Option Str) : Str :=
  stripSchemeHost (stripTrailingSlashes (requestPath.getD (url.getD [])))

/-! Theorems.  First a layer of lemmas about digits, rendering and
parsing, culminating in the parse-of-render round trip that the
contract-filter claims rest on. -/

theorem digitsToNat_from (cs : Str) (a : Nat) :
    cs.foldl (fun x c => 10 * x + (c.toNat - 48)) a = a * 10 ^ cs.length + digitsToNat cs := by
  induction cs generalizing a with
  | nil => simp [digitsToNat]
  | cons c t ih =>
    simp only [List.foldl_cons, digitsToNat]
    rw [ih, ih (10 * 0 + (c.toNat - 48))]
    simp [List.length_cons]
    ring

theorem digitsToNat_append (xs ys : Str) :
    digitsToNat (xs ++ ys) = digitsToNat xs * 10 ^ ys.length + digitsToNat ys := by
  unfold digitsToNat
  rw [List.foldl_append]
  exact digitsToNat_from ys _

theorem digitsToNat_replicate_zero (k : Nat) :
    digitsToNat (List.replicate k '0') = 0 := by
  induction k with
  | zero => rfl
  | succ n ih =>
    have : List.replicate (n + 1) '0' = List.replicate n '0' ++ ['0'] := by
      rw [← List.replicate_succ']
    rw [this, digitsToNat_append, ih]
    rfl

theorem digitChar_isDigit {n : Nat} (h : n < 10) : isDigitCh (digitChar n) = true := by
  interval_cases n <;> decide

theorem digitChar_val {n : Nat} (h : n < 10) : (digitChar n).toNat - 48 = n := by
  interval_cases n <;> decide

theorem natToDigitsF_extra {f1 f2 n : Nat} (h1 : n < f1) (h2 : n < f2) :
    natToDigitsF f1 n = natToDigitsF f2 n := by
  induction n using Nat.strongRecOn generalizing f1 f2 with
  | _ n ih =>
    cases f1 with
    | zero => omega
    | succ g1 =>
      cases f2 with
      | zero => omega
      | succ g2 =>
        simp only [natToDigitsF]
        by_cases hn : n < 10
        · simp [hn]
        · simp only [hn, if_false]
          rw [show natToDigitsF g1 (n / 10) = natToDigitsF g2 (n / 10) from
            ih (n / 10) (by omega) (by omega) (by omega)]

theorem natToDigits_readback (n : Nat) : digitsToNat (natToDigits n) = n := by
  induction n using Nat.strongRecOn with
  | _ n ih =>
    unfold natToDigits
    simp only [natToDigitsF]
    by_cases hn : n < 10
    · simp only [hn, if_true]
      simp [digitsToNat, digitChar_val hn]
    · simp only [hn, if_false]
      rw [natToDigitsF_extra (by omega : n / 10 < n) (by omega : n / 10 < n / 10 + 1)]
      rw [digitsToNat_append]
      rw [show natToDigitsF (n / 10 + 1) (n / 10) = natToDigits (n / 10) from rfl]
      rw [ih (n / 10) (by omega)]
      simp [digitsToNat, digitChar_val (Nat.mod_lt n (by omega))]
      omega

theorem natToDigits_all_digits (n : Nat) : ∀ c ∈ natToDigits n, isDigitCh c = true := by
  induction n using Nat.strongRecOn with
  | _ n ih =>
    unfold natToDigits
    simp only [natToDigitsF]
    by_cases hn : n < 10
    · simp only [hn, if_true]
      intro c hc
      simp at hc
      subst hc
      exact digitChar_isDigit hn
    · simp only [hn, if_false]
      rw [natToDigitsF_extra (by omega : n / 10 < n) (by omega : n / 10 < n / 10 + 1)]
      intro c hc
      rcases List.mem_append.mp hc with h | h
      · exact ih (n / 10) (by omega) c h
      · simp at h
        subst h
        exact digitChar_isDigit (Nat.mod_lt n (by omega))

theorem natToDigits_ne_nil (n : Nat) : natToDigits n ≠ [] := by
  unfold natToDigits
  simp only [natToDigitsF]
  by_cases hn : n < 10
  · simp [hn]
  · simp only [hn, if_false]
    simp

theorem takeWhile_all {p : Char → Bool} {cs : Str} (h : ∀ c ∈ cs, p c = true) :
    cs.takeWhile p = cs := by
  induction cs with
  | nil => rfl
  | cons c t ih =>
    have hc := h c (by simp)
    simp only [List.takeWhile, hc]
    simp [ih (fun x hx => h x (by simp [hx]))]

theorem dropWhile_all {p : Char → Bool} {cs : Str} (h : ∀ c ∈ cs, p c = true) :
    cs.dropWhile p = [] := by
  induction cs with
  | nil => rfl
  | cons c t ih =>
    have hc := h c (by simp)
    simp only [List.dropWhile, hc]
    exact ih (fun x hx => h x (by simp [hx]))

theorem takeWhile_append_stop {p : Char → Bool} {xs ys : Str} {y : Char}
    (hxs : ∀ c ∈ xs, p c = true) (hy : p y = false) :
    (xs ++ y :: ys).takeWhile p = xs := by
  induction xs with
  | nil => simp [List.takeWhile, hy]
  | cons c t ih =>
    have hc := hxs c (by simp)
    simp only [List.cons_append, List.takeWhile, hc]
    simp [ih (fun x hx => hxs x (by simp [hx]))]

theorem dropWhile_append_stop {p : Char → Bool} {xs ys : Str} {y : Char}
    (hxs : ∀ c ∈ xs, p c = true) (hy : p y = false) :
    (xs ++ y :: ys).dropWhile p = y :: ys := by
  induction xs with
  | nil => simp [List.dropWhile, hy]
  | cons c t ih =>
    have hc := hxs c (by simp)
    simp only [List.cons_append, List.dropWhile, hc]
    exact ih (fun x hx => hxs x (by simp [hx]))

theorem digit_bounds {c : Char} (h : isDigitCh c = true) : 48 ≤ c.toNat ∧ c.toNat ≤ 57 := by
  simpa [isDigitCh] using h

theorem digit_not_ws {c : Char} (h : isDigitCh c = true) : isWSch c = false := by
  obtain ⟨h1, h2⟩ := digit_bounds h
  simp [isWSch]
  omega

theorem digit_ne {c d : Char} (h : isDigitCh c = true) (hd : isDigitCh d = false) : c ≠ d := by
  intro he
  rw [he] at h
  rw [h] at hd
  simp at hd

theorem dropWhile_none {p : Char → Bool} {cs : Str} (h : ∀ c ∈ cs, p c = false) :
    cs.dropWhile p = cs := by
  cases cs with
  | nil => rfl
  | cons c t => simp [List.dropWhile, h c (by simp)]

theorem trimWS_eq_self {cs : Str} (h : ∀ c ∈ cs, isWSch c = false) : trimWS cs = cs := by
  unfold trimWS
  rw [dropWhile_none h]
  rw [dropWhile_none (fun c hc => h c (List.mem_reverse.mp hc))]
  exact List.reverse_reverse cs

theorem canonAux_self {k : Nat} {m : Int} (h : k = 0 ∨ m % 10 ≠ 0) : canonAux k m = ⟨m, k⟩ := by
  cases k with
  | zero => rfl
  | succ j =>
    have hm : m % 10 ≠ 0 := by omega
    simp [canonAux, hm]

theorem canon_self {v : Dec} (h : v.canonical) : canon v = v := by
  obtain ⟨m, e⟩ := v
  rcases h with h | h
  · simp only at h
    subst h
    rfl
  · simp only at h
    unfold canon
    simp only
    rw [canonAux_self (Or.inr (by rwa [Int.dvd_iff_emod_eq_zero] at h))]

theorem canonAux_canonical (k : Nat) (m : Int) : (canonAux k m).canonical := by
  induction k generalizing m with
  | zero => exact Or.inl rfl
  | succ j ih =>
    by_cases hm : m % 10 = 0
    · simpa [canonAux, hm] using ih (m / 10)
    · simp only [canonAux, hm, if_false]
      exact Or.inr (by rwa [Int.dvd_iff_emod_eq_zero])

theorem canon_canonical (v : Dec) : (canon v).canonical := canonAux_canonical v.exp v.man

theorem mult10F_spec : ∀ f m, 0 < m → m ≤ f →
    10 ^ (mult10F f m) ∣ m ∧ (m / 10 ^ (mult10F f m)) % 10 ≠ 0 := by
  intro f
  induction f with
  | zero => intro m h1 h2; omega
  | succ g ih =>
    intro m h1 h2
    simp only [mult10F]
    by_cases hd : m % 10 = 0
    · have hz : m ≠ 0 := by omega
      have hcond : (m % 10 = 0 && m != 0) = true := by simp [hd, hz]
      rw [hcond]
      simp only [if_true]
      have h10 : 10 ∣ m := Nat.dvd_of_mod_eq_zero hd
      have hm10 : 0 < m / 10 := Nat.div_pos (Nat.le_of_dvd h1 h10) (by omega)
      have hle : m / 10 ≤ g := by omega
      obtain ⟨ihd, ihm⟩ := ih (m / 10) hm10 hle
      constructor
      · rw [pow_succ]
        obtain ⟨q, hq⟩ := ihd
        refine ⟨q, ?_⟩
        set K := mult10F g (m / 10) with hK
        calc m = m / 10 * 10 := (Nat.div_mul_cancel h10).symm
          _ = 10 ^ K * q * 10 := by rw [hq]
          _ = 10 ^ K * 10 * q := by ring
      · rw [pow_succ]
        rw [show m / (10 ^ mult10F g (m / 10) * 10) = m / 10 / 10 ^ mult10F g (m / 10) by
          rw [Nat.div_div_eq_div_mul, Nat.mul_comm]]
        exact ihm
    · have hcond : (m % 10 = 0 && m != 0) = false := by simp [hd]
      rw [hcond]
      simp only [Bool.false_eq_true, if_false, pow_zero, Nat.div_one]
      exact ⟨Nat.one_dvd m, hd⟩

theorem mult10_spec {m : Nat} (h : 0 < m) :
    10 ^ (mult10 m) ∣ m ∧ (m / 10 ^ (mult10 m)) % 10 ≠ 0 :=
  mult10F_spec m m h (Nat.le_refl m)

theorem mult10_of_mod {m : Nat} (h : m % 10 ≠ 0) : mult10 m = 0 := by
  unfold mult10
  cases m with
  | zero => rfl
  | succ j => simp [mult10, mult10F, h]


theorem decChar_not_radix {c2 : Char}
    (h : isDigitCh c2 = true ∨ c2 = '.' ∨ c2 = 'e' ∨ c2 = '+' ∨ c2 = '-') :
    c2 ≠ 'x' ∧ c2 ≠ 'X' ∧ c2 ≠ 'o' ∧ c2 ≠ 'O' ∧ c2 ≠ 'b' ∧ c2 ≠ 'B' := by
  rcases h with h | h | h | h | h
  · exact ⟨digit_ne h (by decide), digit_ne h (by decide), digit_ne h (by decide),
      digit_ne h (by decide), digit_ne h (by decide), digit_ne h (by decide)⟩
  all_goals subst h
  all_goals exact ⟨by decide, by decide, by decide, by decide, by decide, by decide⟩

theorem jsParse_eq_core {c : Char} {t : Str}
    (hc : isDigitCh c = true)
    (hall : ∀ x ∈ c :: t, isDigitCh x = true ∨ x = '.' ∨ x = 'e' ∨ x = '+' ∨ x = '-') :
    jsParse (c :: t) =
      (match parseDecCore (c :: t) with
       | some v => JNum.fin v
       | none => JNum.nan) := by
  have hws : ∀ x ∈ c :: t, isWSch x = false := by
    intro x hx
    rcases hall x hx with h | h | h | h | h
    · exact digit_not_ws h
    all_goals subst h
    all_goals decide
  have hplus : c ≠ '+' := digit_ne hc (by decide)
  have hminus : c ≠ '-' := digit_ne hc (by decide)
  have hinf : (c :: t) ≠ "Infinity".toList := by
    intro he
    rw [show "Infinity".toList = 'I' :: "nfinity".toList from rfl] at he
    injection he with h1 _
    rw [h1] at hc
    simp [isDigitCh] at hc
  have hsigned : parseSigned (c :: t) =
      (match parseDecCore (c :: t) with
       | some v => JNum.fin v
       | none => JNum.nan) := by
    simp only [parseSigned, hplus, hminus, if_false]
    simp only [parseUnsigned, hinf, if_false]
  have hnum : parseNumeric (c :: t) = parseSigned (c :: t) := by
    cases t with
    | nil => simp [parseNumeric, startsRadix]
    | cons c2 t2 =>
      obtain ⟨hx1, hx2, ho1, ho2, hb1, hb2⟩ := decChar_not_radix (hall c2 (by simp))
      simp [parseNumeric, startsRadix, hx1, hx2, ho1, ho2, hb1, hb2]
  unfold jsParse
  rw [trimWS_eq_self hws]
  simp only [List.isEmpty_cons, Bool.false_eq_true, if_false]
  rw [hnum, hsigned]


theorem core_allDigits {ds : Str} (h : ∀ c ∈ ds, isDigitCh c = true) (hne : ds ≠ []) :
    parseDecCore ds = some (canon ⟨(digitsToNat ds : Int), 0⟩) := by
  unfold parseDecCore
  rw [takeWhile_all h, dropWhile_all h]
  simp [hne, show digitsToNat ([] : Str) = 0 from rfl]

theorem core_point {t u : Str} (ht : ∀ c ∈ t, isDigitCh c = true)
    (hu : ∀ c ∈ u, isDigitCh c = true) (htne : t ≠ []) :
    parseDecCore (t ++ '.' :: u) =
      some (canon ⟨(digitsToNat t * 10 ^ u.length + digitsToNat u : Nat), u.length⟩) := by
  unfold parseDecCore
  rw [takeWhile_append_stop ht (show isDigitCh '.' = false by decide),
    dropWhile_append_stop ht (show isDigitCh '.' = false by decide)]
  simp [takeWhile_all hu, dropWhile_all hu, htne]

theorem core_point_exp_neg {t u ed : Str} (ht : ∀ c ∈ t, isDigitCh c = true)
    (hu : ∀ c ∈ u, isDigitCh c = true) (hed : ∀ c ∈ ed, isDigitCh c = true)
    (htne : t ≠ []) (hedne : ed ≠ []) :
    parseDecCore (t ++ '.' :: u ++ 'e' :: '-' :: ed) =
      some (canon ⟨(digitsToNat t * 10 ^ u.length + digitsToNat u : Nat),
        u.length + digitsToNat ed⟩) := by
  unfold parseDecCore
  rw [show t ++ '.' :: u ++ 'e' :: '-' :: ed = t ++ '.' :: (u ++ 'e' :: '-' :: ed) by simp]
  rw [takeWhile_append_stop ht (show isDigitCh '.' = false by decide),
    dropWhile_append_stop ht (show isDigitCh '.' = false by decide)]
  simp [takeWhile_append_stop hu (show isDigitCh 'e' = false by decide),
    dropWhile_append_stop hu (show isDigitCh 'e' = false by decide),
    takeWhile_all hed, dropWhile_all hed, htne, hedne]

theorem core_point_exp_pos {t u ed : Str} (ht : ∀ c ∈ t, isDigitCh c = true)
    (hu : ∀ c ∈ u, isDigitCh c = true) (hed : ∀ c ∈ ed, isDigitCh c = true)
    (htne : t ≠ []) (hedne : ed ≠ []) :
    parseDecCore (t ++ '.' :: u ++ 'e' :: '+' :: ed) =
      some (if digitsToNat ed ≤ u.length then
              canon ⟨(digitsToNat t * 10 ^ u.length + digitsToNat u : Nat),
                u.length - digitsToNat ed⟩
            else canon ⟨((digitsToNat t * 10 ^ u.length + digitsToNat u : Nat) : Int) *
                (10 : Int) ^ (digitsToNat ed - u.length), 0⟩) := by
  unfold parseDecCore
  rw [show t ++ '.' :: u ++ 'e' :: '+' :: ed = t ++ '.' :: (u ++ 'e' :: '+' :: ed) by simp]
  rw [takeWhile_append_stop ht (show isDigitCh '.' = false by decide),
    dropWhile_append_stop ht (show isDigitCh '.' = false by decide)]
  simp [takeWhile_append_stop hu (show isDigitCh 'e' = false by decide),
    dropWhile_append_stop hu (show isDigitCh 'e' = false by decide),
    takeWhile_all hed, dropWhile_all hed, htne, hedne]
  split <;> rfl

theorem core_nopoint_exp_neg {t ed : Str} (ht : ∀ c ∈ t, isDigitCh c = true)
    (hed : ∀ c ∈ ed, isDigitCh c = true) (htne : t ≠ []) (hedne : ed ≠ []) :
    parseDecCore (t ++ 'e' :: '-' :: ed) =
      some (canon ⟨(digitsToNat t : Int), digitsToNat ed⟩) := by
  unfold parseDecCore
  rw [takeWhile_append_stop ht (show isDigitCh 'e' = false by decide),
    dropWhile_append_stop ht (show isDigitCh 'e' = false by decide)]
  simp [takeWhile_all hed, dropWhile_all hed, htne, hedne,
    show digitsToNat ([] : Str) = 0 from rfl]

theorem core_nopoint_exp_pos {t ed : Str} (ht : ∀ c ∈ t, isDigitCh c = true)
    (hed : ∀ c ∈ ed, isDigitCh c = true) (htne : t ≠ []) (hedne : ed ≠ []) :
    parseDecCore (t ++ 'e' :: '+' :: ed) =
      some (if digitsToNat ed = 0 then canon ⟨(digitsToNat t : Int), 0⟩
            else canon ⟨(digitsToNat t : Int) * (10 : Int) ^ (digitsToNat ed), 0⟩) := by
  unfold parseDecCore
  rw [takeWhile_append_stop ht (show isDigitCh 'e' = false by decide),
    dropWhile_append_stop ht (show isDigitCh 'e' = false by decide)]
  simp [takeWhile_all hed, dropWhile_all hed, htne, hedne,
    show digitsToNat ([] : Str) = 0 from rfl]
  split <;> rfl

theorem canon_zero (m : Int) : canon ⟨m, 0⟩ = ⟨m, 0⟩ := rfl

theorem parse_renderDE {d : Nat} (e : Int) (h10 : d % 10 ≠ 0) :
    jsParse (renderDE d e) = .fin (canonDE d e) := by
  have hsd := natToDigits_all_digits d
  have hsne := natToDigits_ne_nil d
  have hread := natToDigits_readback d
  have hnd10 : ¬ (10 : Int) ∣ (d : Int) := by
    rw [Int.dvd_iff_emod_eq_zero]
    omega
  have hcanon : ∀ k : Nat, canon ⟨(d : Int), k⟩ = ⟨(d : Int), k⟩ :=
    fun k => canon_self (Or.inr hnd10)
  obtain ⟨c, srest, hs⟩ := List.exists_cons_of_ne_nil hsne
  have hcm : c ∈ natToDigits d := by rw [hs]; simp
  have hcd : isDigitCh c = true := hsd c hcm
  have hL1 : 1 ≤ (natToDigits d).length := List.length_pos.mpr hsne
  simp only [renderDE]
  set L := (natToDigits d).length with hLdef
  split_ifs with h1 h2 h3 h4
  · -- positional integer: digits then zeros
    rw [hs, List.cons_append]
    rw [jsParse_eq_core hcd (by
      intro x hx
      rcases List.mem_cons.mp hx with hx | hx
      · subst hx; exact Or.inl hcd
      · rcases List.mem_append.mp hx with hx | hx
        · exact Or.inl (hsd x (by rw [hs]; simp [hx]))
        · exact Or.inl (by rw [List.eq_of_mem_replicate hx]; decide))]
    rw [show c :: (srest ++ List.replicate e.toNat '0') =
        natToDigits d ++ List.replicate e.toNat '0' by rw [hs]; rfl]
    rw [core_allDigits (by
      intro x hx
      rcases List.mem_append.mp hx with hx | hx
      · exact hsd x hx
      · rw [List.eq_of_mem_replicate hx]; decide) (by simp [hs])]
    simp only []
    rw [digitsToNat_append, hread, digitsToNat_replicate_zero, List.length_replicate]
    rw [canon_zero]
    unfold canonDE
    rw [if_pos h1.1]
    push_cast
    ring_nf
  · -- positional with a decimal point inside the digits
    have he : e < 0 := by
      by_contra hee
      push_neg at hee
      exact h1 ⟨hee, h2.2⟩
    set n := (((L : Int)) + e).toNat with hndef
    have hni : (n : Int) = (L : Int) + e := Int.toNat_of_nonneg (by omega)
    have hn1 : 1 ≤ n := by omega
    have hnL : n < L := by omega
    obtain ⟨m, hm⟩ : ∃ m, n = m + 1 := ⟨n - 1, by omega⟩
    have htk : (natToDigits d).take n = c :: srest.take m := by
      rw [hs, hm]
      simp [List.take_succ_cons]
    have htkd : ∀ x ∈ (natToDigits d).take n, isDigitCh x = true :=
      fun x hx => hsd x (List.take_subset n (natToDigits d) hx)
    have hdrd : ∀ x ∈ (natToDigits d).drop n, isDigitCh x = true :=
      fun x hx => hsd x (List.drop_subset n (natToDigits d) hx)
    have htkne : (natToDigits d).take n ≠ [] := by rw [htk]; simp
    rw [htk, List.cons_append]
    rw [jsParse_eq_core hcd (by
      intro x hx
      rcases List.mem_cons.mp hx with hx | hx
      · subst hx; exact Or.inl hcd
      · rcases List.mem_append.mp hx with hx | hx
        · exact Or.inl (hsd x (by rw [hs]; exact List.mem_cons_of_mem c (List.take_subset m srest hx)))
        · rcases List.mem_cons.mp hx with hx | hx
          · subst hx; exact Or.inr (Or.inl rfl)
          · exact Or.inl (hdrd x hx))]
    rw [show c :: (srest.take m ++ '.' :: (natToDigits d).drop n) =
        (natToDigits d).take n ++ '.' :: (natToDigits d).drop n by rw [htk]; rfl]
    rw [core_point htkd hdrd htkne]
    simp only []
    have hmm : digitsToNat ((natToDigits d).take n) * 10 ^ ((natToDigits d).drop n).length +
        digitsToNat ((natToDigits d).drop n) = d := by
      have hap := digitsToNat_append ((natToDigits d).take n) ((natToDigits d).drop n)
      rw [List.take_append_drop] at hap
      rw [← hap]
      exact hread
    rw [hmm]
    rw [hcanon]
    unfold canonDE
    rw [if_neg (by omega : ¬ (0:Int) ≤ e)]
    have hlen : ((natToDigits d).drop n).length = (-e).toNat := by
      rw [List.length_drop]
      omega
    rw [hlen]
  · -- small fraction: leading zero then padding zeros
    have he : e < 0 := by
      have := h3.2
      omega
    rw [jsParse_eq_core (show isDigitCh '0' = true by decide) (by
      intro x hx
      rcases List.mem_cons.mp hx with hx | hx
      · subst hx; exact Or.inl (by decide)
      · rcases List.mem_cons.mp hx with hx | hx
        · subst hx; exact Or.inr (Or.inl rfl)
        · rcases List.mem_append.mp hx with hx | hx
          · exact Or.inl (by rw [List.eq_of_mem_replicate hx]; decide)
          · exact Or.inl (hsd x hx))]
    rw [show ('0' :: '.' :: (List.replicate (-((L : Int) + e)).toNat '0' ++ natToDigits d) : Str) =
      ['0'] ++ '.' :: (List.replicate (-((L : Int) + e)).toNat '0' ++ natToDigits d) from rfl]
    rw [core_point (by intro x hx; simp at hx; subst hx; decide) (by
      intro x hx
      rcases List.mem_append.mp hx with hx | hx
      · exact (by rw [List.eq_of_mem_replicate hx]; decide)
      · exact hsd x hx) (by simp)]
    simp only []
    have hu : digitsToNat (List.replicate (-((L : Int) + e)).toNat '0' ++ natToDigits d) = d := by
      rw [digitsToNat_append, digitsToNat_replicate_zero, hread]
      simp
    rw [hu]
    rw [show digitsToNat ['0'] = 0 from rfl]
    simp only [Nat.zero_mul, Nat.zero_add]
    rw [hcanon]
    unfold canonDE
    rw [if_neg (by omega : ¬ (0:Int) ≤ e)]
    have hlen : (List.replicate (-((L : Int) + e)).toNat '0' ++ natToDigits d).length =
        (-e).toNat := by
      rw [List.length_append, List.length_replicate]
      omega
    rw [hlen]
  · -- scientific notation with positive exponent
    have h21 : 21 < ((L : Int)) + e := by
      rcases lt_or_le 21 (((L : Int)) + e) with hgt | hle
      · exact hgt
      · exact absurd ⟨h4, hle⟩ h2
    rw [hs]
    have hLs : L = srest.length + 1 := by rw [hLdef, hs]; rfl
    have hedd := natToDigits_all_digits (((L : Int)) + e - 1).toNat
    have hedne := natToDigits_ne_nil (((L : Int)) + e - 1).toNat
    have hedread := natToDigits_readback (((L : Int)) + e - 1).toNat
    by_cases hre : srest.isEmpty
    · have hre2 : srest = [] := by simpa [List.isEmpty_iff] using hre
      subst hre2
      have hLone : L = 1 := by simpa using hLs
      simp only [List.isEmpty_nil, if_true, List.singleton_append]
      rw [jsParse_eq_core hcd (by
        intro x hx
        rcases List.mem_cons.mp hx with hx | hx
        · subst hx; exact Or.inl hcd
        · rcases List.mem_cons.mp hx with hx | hx
          · subst hx; exact Or.inr (Or.inr (Or.inl rfl))
          · rcases List.mem_cons.mp hx with hx | hx
            · subst hx; exact Or.inr (Or.inr (Or.inr (Or.inl rfl)))
            · exact Or.inl (hedd x hx))]
      rw [show (c :: 'e' :: '+' :: natToDigits (((L : Int)) + e - 1).toNat : Str) =
        [c] ++ 'e' :: '+' :: natToDigits (((L : Int)) + e - 1).toNat from rfl]
      rw [core_nopoint_exp_pos (by intro x hx; simp at hx; subst hx; exact hcd) hedd
        (by simp) hedne]
      rw [hedread]
      rw [if_neg (by omega)]
      have hdc : digitsToNat [c] = d := by
        rw [show ([c] : Str) = natToDigits d from hs.symm, hread]
      rw [hdc, canon_zero]
      unfold canonDE
      rw [if_pos (by omega : (0:Int) ≤ e)]
      have hto : (((L : Int)) + e - 1).toNat = e.toNat := by omega
      rw [hto]
    · have hre2 : srest ≠ [] := by simpa [List.isEmpty_iff] using hre
      show jsParse ((c :: if srest.isEmpty = true then ([] : Str) else '.' :: srest) ++
          'e' :: '+' :: natToDigits (((L : Int)) + e - 1).toNat) = JNum.fin (canonDE d e)
      rw [show (if srest.isEmpty = true then ([] : Str) else '.' :: srest) = '.' :: srest from by
        simp [hre2]]
      rw [List.cons_append]
      have hsrd : ∀ x ∈ srest, isDigitCh x = true := by
        intro x hx
        exact hsd x (by rw [hs]; exact List.mem_cons_of_mem c hx)
      rw [jsParse_eq_core hcd (by
        intro x hx
        rcases List.mem_cons.mp hx with hx | hx
        · subst hx; exact Or.inl hcd
        · rcases List.mem_cons.mp hx with hx | hx
          · subst hx; exact Or.inr (Or.inl rfl)
          · rcases List.mem_append.mp hx with hx | hx
            · exact Or.inl (hsrd x hx)
            · rcases List.mem_cons.mp hx with hx | hx
              · subst hx; exact Or.inr (Or.inr (Or.inl rfl))
              · rcases List.mem_cons.mp hx with hx | hx
                · subst hx; exact Or.inr (Or.inr (Or.inr (Or.inl rfl)))
                · exact Or.inl (hedd x hx))]
      rw [show (c :: ('.' :: srest ++ 'e' :: '+' :: natToDigits (((L : Int)) + e - 1).toNat) : Str) =
        [c] ++ '.' :: srest ++ 'e' :: '+' :: natToDigits (((L : Int)) + e - 1).toNat by simp]
      rw [core_point_exp_pos (by intro x hx; simp at hx; subst hx; exact hcd) hsrd hedd
        (by simp) hedne]
      rw [hedread]
      have hdc : digitsToNat [c] * 10 ^ srest.length + digitsToNat srest = d := by
        have hap := digitsToNat_append [c] srest
        rw [show ([c] : Str) ++ srest = natToDigits d from by rw [hs]; rfl, hread] at hap
        omega
      rw [hdc]
      by_cases hep : ((((L : Int)) + e - 1).toNat) ≤ srest.length
      · rw [if_pos hep]
        rw [hcanon]
        unfold canonDE
        by_cases hee : e = 0
        · subst hee
          rw [if_pos (by omega)]
          have hz : srest.length - (((L : Int)) + 0 - 1).toNat = 0 := by omega
          rw [hz]
          norm_num
        · rw [if_neg (by omega)]
          have hz : srest.length - (((L : Int)) + e - 1).toNat = (-e).toNat := by omega
          rw [hz]
      · rw [if_neg hep]
        rw [canon_zero]
        unfold canonDE
        rw [if_pos (by omega : (0:Int) ≤ e)]
        have hz : (((L : Int)) + e - 1).toNat - srest.length = e.toNat := by omega
        rw [hz]
  · -- scientific notation with negative exponent
    have h6 : ((L : Int)) + e ≤ -6 := by
      rcases le_or_lt (((L : Int)) + e) (-6) with hle | hgt
      · exact hle
      · exact absurd ⟨hgt, by omega⟩ h3
    rw [hs]
    have hLs : L = srest.length + 1 := by rw [hLdef, hs]; rfl
    have hedd := natToDigits_all_digits (1 - (((L : Int)) + e)).toNat
    have hedne := natToDigits_ne_nil (1 - (((L : Int)) + e)).toNat
    have hedread := natToDigits_readback (1 - (((L : Int)) + e)).toNat
    by_cases hre : srest.isEmpty
    · have hre2 : srest = [] := by simpa [List.isEmpty_iff] using hre
      subst hre2
      have hLone : L = 1 := by simpa using hLs
      simp only [List.isEmpty_nil, if_true, List.singleton_append]
      rw [jsParse_eq_core hcd (by
        intro x hx
        rcases List.mem_cons.mp hx with hx | hx
        · subst hx; exact Or.inl hcd
        · rcases List.mem_cons.mp hx with hx | hx
          · subst hx; exact Or.inr (Or.inr (Or.inl rfl))
          · rcases List.mem_cons.mp hx with hx | hx
            · subst hx; exact Or.inr (Or.inr (Or.inr (Or.inr rfl)))
            · exact Or.inl (hedd x hx))]
      rw [show (c :: 'e' :: '-' :: natToDigits (1 - (((L : Int)) + e)).toNat : Str) =
        [c] ++ 'e' :: '-' :: natToDigits (1 - (((L : Int)) + e)).toNat from rfl]
      rw [core_nopoint_exp_neg (by intro x hx; simp at hx; subst hx; exact hcd) hedd
        (by simp) hedne]
      rw [hedread]
      have hdc : digitsToNat [c] = d := by
        rw [show ([c] : Str) = natToDigits d from hs.symm, hread]
      rw [hdc]
      rw [hcanon]
      unfold canonDE
      rw [if_neg (by omega : ¬ (0:Int) ≤ e)]
      have hto : (1 - (((L : Int)) + e)).toNat = (-e).toNat := by omega
      rw [hto]
    · have hre2 : srest ≠ [] := by simpa [List.isEmpty_iff] using hre
      show jsParse ((c :: if srest.isEmpty = true then ([] : Str) else '.' :: srest) ++
          'e' :: '-' :: natToDigits (1 - (((L : Int)) + e)).toNat) = JNum.fin (canonDE d e)
      rw [show (if srest.isEmpty = true then ([] : Str) else '.' :: srest) = '.' :: srest from by
        simp [hre2]]
      rw [List.cons_append]
      have hsrd : ∀ x ∈ srest, isDigitCh x = true := by
        intro x hx
        exact hsd x (by rw [hs]; exact List.mem_cons_of_mem c hx)
      rw [jsParse_eq_core hcd (by
        intro x hx
        rcases List.mem_cons.mp hx with hx | hx
        · subst hx; exact Or.inl hcd
        · rcases List.mem_cons.mp hx with hx | hx
          · subst hx; exact Or.inr (Or.inl rfl)
          · rcases List.mem_append.mp hx with hx | hx
            · exact Or.inl (hsrd x hx)
            · rcases List.mem_cons.mp hx with hx | hx
              · subst hx; exact Or.inr (Or.inr (Or.inl rfl))
              · rcases List.mem_cons.mp hx with hx | hx
                · subst hx; exact Or.inr (Or.inr (Or.inr (Or.inr rfl)))
                · exact Or.inl (hedd x hx))]
      rw [show (c :: ('.' :: srest ++ 'e' :: '-' :: natToDigits (1 - (((L : Int)) + e)).toNat) : Str) =
        [c] ++ '.' :: srest ++ 'e' :: '-' :: natToDigits (1 - (((L : Int)) + e)).toNat by simp]
      rw [core_point_exp_neg (by intro x hx; simp at hx; subst hx; exact hcd) hsrd hedd
        (by simp) hedne]
      rw [hedread]
      have hdc : digitsToNat [c] * 10 ^ srest.length + digitsToNat srest = d := by
        have hap := digitsToNat_append [c] srest
        rw [show ([c] : Str) ++ srest = natToDigits d from by rw [hs]; rfl, hread] at hap
        omega
      rw [hdc]
      rw [hcanon]
      unfold canonDE
      rw [if_neg (by omega : ¬ (0:Int) ≤ e)]
      have hz : srest.length + (1 - (((L : Int)) + e)).toNat = (-e).toNat := by omega
      rw [hz]

theorem canonDE_canonical {d : Nat} (e : Int) (h10 : d % 10 ≠ 0) : (canonDE d e).canonical := by
  unfold canonDE
  split_ifs with he
  · exact Or.inl rfl
  · refine Or.inr fun hdvd => ?_
    obtain ⟨k, hk⟩ := hdvd
    simp only [] at hk
    omega

theorem canonDE_pos {d : Nat} (e : Int) (hd : 0 < d) : 0 < (canonDE d e).man := by
  unfold canonDE
  split_ifs with he
  · simp only []
    positivity
  · simp only []
    omega

theorem jsNumToString_pos {v : Dec} (h : 0 < v.man) :
    jsNumToString (.fin v) = renderPos v := by
  show (if v.man = 0 then ['0']
    else if v.man < 0 then '-' :: renderPos ⟨-v.man, v.exp⟩ else renderPos v) = renderPos v
  rw [if_neg (by omega), if_neg (by omega)]

theorem renderPos_spec {v : Dec} (h : 0 < v.man) :
    jsParse (renderPos v) =
      .fin (canonDE (v.man.toNat / 10 ^ mult10 v.man.toNat)
        ((mult10 v.man.toNat : Int) - v.exp)) := by
  have hm : 0 < v.man.toNat := by omega
  obtain ⟨hdvd, hmod⟩ := mult10_spec hm
  unfold renderPos
  exact parse_renderDE _ hmod

theorem renderPos_result {v : Dec} (h : 0 < v.man) :
    ∃ w : Dec, jsParse (renderPos v) = .fin w ∧ 0 < w.man ∧ w.canonical := by
  have hm : 0 < v.man.toNat := by omega
  obtain ⟨hdvd, hmod⟩ := mult10_spec hm
  have hdpos : 0 < v.man.toNat / 10 ^ mult10 v.man.toNat :=
    Nat.div_pos (Nat.le_of_dvd hm hdvd) (by positivity)
  exact ⟨_, renderPos_spec h, canonDE_pos _ hdpos, canonDE_canonical _ hmod⟩

theorem renderPos_roundtrip {v : Dec} (h : 0 < v.man) (hc : v.canonical) :
    jsParse (renderPos v) = .fin v := by
  rw [renderPos_spec h]
  congr 1
  have hm : 0 < v.man.toNat := by omega
  obtain ⟨hdvd, hmod⟩ := mult10_spec hm
  have hmcast : (v.man.toNat : Int) = v.man := Int.toNat_of_nonneg (by omega)
  rcases hc with hc | hc
  · -- exponent zero: the value is the integer mantissa
    unfold canonDE
    rw [hc]
    rw [if_pos (by omega : (0:Int) ≤ (mult10 v.man.toNat : Int) - (0:Nat))]
    obtain ⟨m, e⟩ := v
    simp only [] at hc hmcast hdvd ⊢
    subst hc
    have hto : (((mult10 m.toNat : Nat) : Int) - ((0:Nat):Int)).toNat = mult10 m.toNat := by
      omega
    rw [hto]
    have hrec : m.toNat / 10 ^ mult10 m.toNat * 10 ^ mult10 m.toNat = m.toNat :=
      Nat.div_mul_cancel hdvd
    congr 1
    calc ((m.toNat / 10 ^ mult10 m.toNat : Nat) : Int) * (10:Int) ^ mult10 m.toNat
        = ((m.toNat / 10 ^ mult10 m.toNat * 10 ^ mult10 m.toNat : Nat) : Int) := by push_cast; ring
      _ = m := by rw [hrec]; exact hmcast
  · -- mantissa not a multiple of ten: nothing is stripped
    have hnm : v.man.toNat % 10 ≠ 0 := fun hmm =>
      hc ⟨((v.man.toNat / 10 : Nat) : Int), by omega⟩
    rw [mult10_of_mod hnm]
    unfold canonDE
    simp only [pow_zero, Nat.div_one]
    obtain ⟨m, e⟩ := v
    simp only [] at hmcast ⊢
    by_cases hexp : e = 0
    · subst hexp
      rw [if_pos (by norm_num)]
      norm_num
      omega
    · rw [if_neg (by omega)]
      have h1 : (-(((0:Nat):Int) - (e:Int))).toNat = e := by omega
      rw [h1, hmcast]

theorem parseDecCore_canonical {cs : Str} {v : Dec} (h : parseDecCore cs = some v) :
    v.canonical := by
  simp only [parseDecCore] at h
  repeat' split at h
  all_goals
    first
    | (injection h with h; subst h; exact canon_canonical _)
    | simp at h

theorem parseUnsigned_canonical {u : Str} {v : Dec} (h : parseUnsigned u = .fin v) :
    v.canonical := by
  unfold parseUnsigned at h
  split_ifs at h
  split at h
  · rename_i w hw
    injection h with h
    subst h
    exact parseDecCore_canonical hw
  · simp at h

theorem parseSigned_canonical {t : Str} {v : Dec} (h : parseSigned t = .fin v) :
    v.canonical := by
  unfold parseSigned at h
  split at h
  · exact parseUnsigned_canonical h
  · rename_i c u
    split_ifs at h
    · exact parseUnsigned_canonical h
    · cases hpu : parseUnsigned u with
      | nan => rw [hpu] at h; simp [jsNegate] at h
      | inf b => rw [hpu] at h; simp [jsNegate] at h
      | fin w =>
        rw [hpu] at h
        simp only [jsNegate] at h
        injection h with h
        have hw := parseUnsigned_canonical hpu
        subst h
        rcases hw with he | hd
        · exact Or.inl he
        · exact Or.inr (fun hc => hd ((Int.dvd_neg).mp hc))
    · exact parseUnsigned_canonical h

theorem parseRadix_canonical {b : Nat} {u : Str} {v : Dec} (h : parseRadix b u = .fin v) :
    v.canonical := by
  unfold parseRadix at h
  split_ifs at h
  injection h with h
  subst h
  exact Or.inl rfl

theorem jsParse_fin_canonical {cs : Str} {v : Dec} (h : jsParse cs = .fin v) :
    v.canonical := by
  simp only [jsParse] at h
  split at h
  · injection h with h
    subst h
    exact Or.inl rfl
  · simp only [parseNumeric] at h
    split_ifs at h
    · exact parseRadix_canonical h
    · exact parseRadix_canonical h
    · exact parseRadix_canonical h
    · exact parseSigned_canonical h

theorem renderDE_ne_nil (d : Nat) (e : Int) : renderDE d e ≠ [] := by
  simp only [renderDE]
  split_ifs with h1 h2 h3 h4
  · simp [natToDigits_ne_nil d]
  · simp
  · simp
  · cases hs : natToDigits d with
    | nil => exact absurd hs (natToDigits_ne_nil d)
    | cons c rest => simp
  · cases hs : natToDigits d with
    | nil => exact absurd hs (natToDigits_ne_nil d)
    | cons c rest => simp

theorem renderPos_ne_nil (v : Dec) : renderPos v ≠ [] := by
  unfold renderPos
  exact renderDE_ne_nil _ _

theorem tpds_shape {x : Option JSValue} {o : Str}
    (h : toPositiveDecimalString x = some o) :
    ∃ w : Dec, 0 < w.man ∧ w.canonical ∧ roundsToInf w = false ∧ roundsToZero w = false ∧
      o = jsNumToString (.fin w) ∧ jsParse o = .fin w := by
  unfold toPositiveDecimalString at h
  split at h
  · simp at h
  · rename_i token htok
    split_ifs at h
    split at h
    · rename_i v hv
      split_ifs at h with hcond
      injection h with h
      subst h
      simp only [Bool.and_eq_true, Bool.not_eq_true', decide_eq_true_eq] at hcond
      obtain ⟨⟨hpos, hInf⟩, hZero⟩ := hcond
      have hc := jsParse_fin_canonical hv
      refine ⟨v, hpos, hc, hInf, hZero, rfl, ?_⟩
      rw [jsNumToString_pos hpos]
      exact renderPos_roundtrip hpos hc
    · simp at h

theorem tpds_ne_nil {x : Option JSValue} {o : Str}
    (h : toPositiveDecimalString x = some o) : o.isEmpty = false := by
  obtain ⟨w, hw, _, _, _, ho, _⟩ := tpds_shape h
  subst ho
  rw [jsNumToString_pos hw]
  simpa [List.isEmpty_iff] using renderPos_ne_nil w

theorem strTruthy_tpds (x : Option JSValue) :
    strTruthy (toPositiveDecimalString x) = (toPositiveDecimalString x).isSome := by
  cases ht : toPositiveDecimalString x with
  | none => rfl
  | some o => simp [strTruthy, tpds_ne_nil ht]

theorem precisionOf_nonneg {x : Option JSValue} {n : Int}
    (h : precisionOf x = some n) : 0 ≤ n := by
  unfold precisionOf at h
  split at h
  · simp at h
  · split at h
    · rename_i v hv
      split_ifs at h with hm
      injection h with h
      subst h
      unfold jsTrunc
      rw [if_pos hm]
      positivity
    · simp at h

theorem jsTrunc_int {n : Int} (h : 0 ≤ n) : jsTrunc ⟨n, 0⟩ = n := by
  unfold jsTrunc
  rw [if_pos h]
  simp only [pow_zero, Nat.div_one]
  omega

theorem precisionOf_num_int {n : Int} (h : 0 ≤ n) :
    precisionOf (some (.num (.fin ⟨n, 0⟩))) = some n := by
  simp only [precisionOf, jsToNumber]
  rw [if_pos h, jsTrunc_int h]

theorem pow10_ok {n : Int} (h : 0 ≤ n) :
    pow10 (.fin ⟨n, 0⟩) = .ok (pow10Str n.toNat) := by
  show (let v := canon ⟨n, 0⟩;
    if v.man < 0 then
      Except.error ("pow10 expects a non-negative finite number, received ".toList ++
        jsNumToString (.fin ⟨n, 0⟩))
    else if v.man = 0 then .ok ['1']
    else if v.exp = 0 then
      if v.man ≤ 308 then .ok (jsNumToString (.fin ⟨1, v.man.toNat⟩)) else .ok ['0']
    else .error "pow10 applied to a non-integer".toList) = .ok (pow10Str n.toNat)
  have hcv : canon ⟨n, 0⟩ = ⟨n, 0⟩ := rfl
  rw [hcv]
  by_cases hz : n = 0
  · subst hz
    rw [if_neg (by simp), if_pos rfl]
    decide
  · rw [if_neg (by simp only []; omega), if_neg (by simp only []; omega), if_pos rfl]
    by_cases h308 : n ≤ 308
    · rw [if_pos h308]
      unfold pow10Str
      rw [if_pos (by omega)]
    · rw [if_neg h308]
      unfold pow10Str
      rw [if_neg (by omega)]

theorem pow10Str_not_empty (k : Nat) : (pow10Str k).isEmpty = false := by
  unfold pow10Str
  split_ifs
  · rw [@jsNumToString_pos ⟨1, k⟩ Int.one_pos]
    simpa [List.isEmpty_iff] using renderPos_ne_nil ⟨1, k⟩
  · rfl

theorem pow10Str_big {n : Nat} (h : 308 < n) : pow10Str n = ['0'] := by
  unfold pow10Str
  rw [if_neg (by omega)]

theorem normalize_closed (raw : RawContract) :
    normalizeContractFilters raw =
      match stepChoice raw with
      | .error m => .error m
      | .ok s =>
        .ok ⟨s, (toPositiveDecimalString raw.tradeMinQuantity).getD s,
          tickChoice raw, precisionOf raw.pricePrecision, precisionOf raw.quantityPrecision⟩ := by
  have htick : ∀ nt : Int, precisionOf raw.pricePrecision = some nt →
      pow10 (.fin ⟨nt, 0⟩) = .ok (pow10Str nt.toNat) :=
    fun nt hnt => pow10_ok (precisionOf_nonneg hnt)
  have hqp10 : ∀ nq : Int, precisionOf raw.quantityPrecision = some nq →
      pow10 (.fin ⟨nq, 0⟩) = .ok (pow10Str nq.toNat) :=
    fun nq hnq => pow10_ok (precisionOf_nonneg hnq)
  cases hstep : toPositiveDecimalString raw.stepSize with
  | some s =>
    have hse : s.isEmpty = false := tpds_ne_nil hstep
    cases htk : toPositiveDecimalString raw.tickSize with
    | some t =>
      have hte : t.isEmpty = false := tpds_ne_nil htk
      simp [normalizeContractFilters, stepChoice, tickChoice, hstep, htk, hse, hte,
        strTruthy, bind, Except.bind, pure, Except.pure]
    | none =>
      cases hpp : precisionOf raw.pricePrecision with
      | some nt =>
        simp [normalizeContractFilters, stepChoice, tickChoice, hstep, htk, hse, hpp,
          htick nt hpp, pow10Str_not_empty,
          strTruthy, bind, Except.bind, pure, Except.pure]
      | none =>
        simp [normalizeContractFilters, stepChoice, tickChoice, hstep, htk, hse, hpp,
          strTruthy, bind, Except.bind, pure, Except.pure]
  | none =>
    cases hqp : precisionOf raw.quantityPrecision with
    | some nq =>
      cases htk : toPositiveDecimalString raw.tickSize with
      | some t =>
        have hte : t.isEmpty = false := tpds_ne_nil htk
        simp [normalizeContractFilters, stepChoice, tickChoice, hstep, hqp, htk, hte,
          hqp10 nq hqp, pow10Str_not_empty,
          strTruthy, bind, Except.bind, pure, Except.pure]
      | none =>
        cases hpp : precisionOf raw.pricePrecision with
        | some nt =>
          simp [normalizeContractFilters, stepChoice, tickChoice, hstep, hqp, htk, hpp,
            hqp10 nq hqp, htick nt hpp, pow10Str_not_empty,
            strTruthy, bind, Except.bind, pure, Except.pure]
        | none =>
          simp [normalizeContractFilters, stepChoice, tickChoice, hstep, hqp, htk, hpp,
            hqp10 nq hqp, pow10Str_not_empty,
            strTruthy, bind, Except.bind, pure, Except.pure]
    | none =>
      cases hsz : toPositiveDecimalString raw.size with
      | some z =>
        have hzsome : raw.size.isSome = true := by
          cases hr : raw.size with
          | none => rw [hr] at hsz; simp [toPositiveDecimalString, toDecimalString] at hsz
          | some _ => rfl
        have hze : z.isEmpty = false := tpds_ne_nil hsz
        cases htk : toPositiveDecimalString raw.tickSize with
        | some t =>
          have hte : t.isEmpty = false := tpds_ne_nil htk
          simp [normalizeContractFilters, stepChoice, tickChoice, hstep, hqp, hsz,
            hzsome, hze, htk, hte, strTruthy, bind, Except.bind, pure, Except.pure]
        | none =>
          cases hpp : precisionOf raw.pricePrecision with
          | some nt =>
            simp [normalizeContractFilters, stepChoice, tickChoice, hstep, hqp, hsz,
              hzsome, hze, htk, hpp, htick nt hpp, pow10Str_not_empty,
              strTruthy, bind, Except.bind, pure, Except.pure]
          | none =>
            simp [normalizeContractFilters, stepChoice, tickChoice, hstep, hqp, hsz,
              hzsome, hze, htk, hpp, strTruthy, bind, Except.bind, pure, Except.pure]
      | none =>
        by_cases hzz : raw.size.isSome
        · simp [normalizeContractFilters, stepChoice, tickChoice, hstep, hqp, hsz, hzz,
            strTruthy, bind, Except.bind, pure, Except.pure]
          rfl
        · have hzf : raw.size.isSome = false := by simpa using hzz
          simp [normalizeContractFilters, stepChoice, tickChoice, hstep, hqp, hsz, hzf,
            strTruthy, bind, Except.bind, pure, Except.pure]
          rfl

/-! Characters of rendered numbers: digits, the point, the exponent marker
and signs only; in particular never whitespace, so trimming a rendered
number is the identity. -/

def plainCh (c : Char) : Bool :=
  isDigitCh c || c = '.' || c = 'e' || c = '+' || c = '-'

theorem digit_plain {c : Char} (h : isDigitCh c = true) : plainCh c = true := by
  simp [plainCh, h]

theorem plain_not_ws {c : Char} (h : plainCh c = true) : isWSch c = false := by
  simp only [plainCh, Bool.or_eq_true, decide_eq_true_eq] at h
  rcases h with ((((hd | he) | he) | he) | he)
  · exact digit_not_ws hd
  all_goals subst he; decide

theorem renderDE_plain (d : Nat) (e : Int) : ∀ c ∈ renderDE d e, plainCh c = true := by
  intro c hc
  have hall := natToDigits_all_digits d
  revert hc
  simp only [renderDE]
  split_ifs with h1 h2 h3 h4
  · intro hc
    rcases List.mem_append.mp hc with hm | hm
    · exact digit_plain (hall c hm)
    · rw [List.eq_of_mem_replicate hm]; decide
  · intro hc
    rcases List.mem_append.mp hc with hm | hm
    · exact digit_plain (hall c (List.mem_of_mem_take hm))
    · rcases List.mem_cons.mp hm with he | hm
      · subst he; decide
      · exact digit_plain (hall c (List.mem_of_mem_drop hm))
  · intro hc
    rcases List.mem_cons.mp hc with he | hc
    · subst he; decide
    rcases List.mem_cons.mp hc with he | hc
    · subst he; decide
    rcases List.mem_append.mp hc with hm | hm
    · rw [List.eq_of_mem_replicate hm]; decide
    · exact digit_plain (hall c hm)
  · cases hs : natToDigits d with
    | nil => intro hc; simp at hc
    | cons c0 rest =>
      rw [hs] at hall
      intro hc
      rcases List.mem_append.mp hc with hm | hm
      · rcases List.mem_cons.mp hm with he | hm
        · subst he; exact digit_plain (hall c (by simp))
        · by_cases hre : rest.isEmpty
          · simp [hre] at hm
          · simp only [hre, if_neg, Bool.false_eq_true, if_false] at hm
            rcases List.mem_cons.mp hm with he | hm
            · subst he; decide
            · exact digit_plain (hall c (by simp [hm]))
      · rcases List.mem_cons.mp hm with he | hm
        · subst he; decide
        rcases List.mem_cons.mp hm with he | hm
        · subst he; decide
        · exact digit_plain (natToDigits_all_digits _ c hm)
  · cases hs : natToDigits d with
    | nil => intro hc; simp at hc
    | cons c0 rest =>
      rw [hs] at hall
      intro hc
      rcases List.mem_append.mp hc with hm | hm
      · rcases List.mem_cons.mp hm with he | hm
        · subst he; exact digit_plain (hall c (by simp))
        · by_cases hre : rest.isEmpty
          · simp [hre] at hm
          · simp only [hre, if_neg, Bool.false_eq_true, if_false] at hm
            rcases List.mem_cons.mp hm with he | hm
            · subst he; decide
            · exact digit_plain (hall c (by simp [hm]))
      · rcases List.mem_cons.mp hm with he | hm
        · subst he; decide
        rcases List.mem_cons.mp hm with he | hm
        · subst he; decide
        · exact digit_plain (natToDigits_all_digits _ c hm)

theorem renderPos_plain (v : Dec) : ∀ c ∈ renderPos v, plainCh c = true := by
  unfold renderPos
  exact renderDE_plain _ _

theorem jsNumToString_plain {v : Dec} (h : 0 < v.man) :
    ∀ c ∈ jsNumToString (.fin v), plainCh c = true := by
  rw [jsNumToString_pos h]
  exact renderPos_plain v

/-- Re-normalising the string of a canonical positive value (within the
double range) through toPositiveDecimalString gives the same string
back. -/
theorem tpds_render {w : Dec} (hpos : 0 < w.man) (hc : w.canonical)
    (hInf : roundsToInf w = false) (hZero : roundsToZero w = false) :
    toPositiveDecimalString (some (.str (jsNumToString (.fin w)))) =
      some (jsNumToString (.fin w)) := by
  have htr : trimWS (jsNumToString (.fin w)) = jsNumToString (.fin w) :=
    trimWS_eq_self (fun c hm => plain_not_ws (jsNumToString_plain hpos c hm))
  have hne : (jsNumToString (.fin w)).isEmpty = false := by
    rw [jsNumToString_pos hpos]
    simpa [List.isEmpty_iff] using renderPos_ne_nil w
  have hparse : jsParse (jsNumToString (.fin w)) = .fin w := by
    rw [jsNumToString_pos hpos]
    exact renderPos_roundtrip hpos hc
  simp [toPositiveDecimalString, toDecimalString, htr, hne, hparse, hpos, hInf, hZero]

/-- The shape every positive normalized filter string has: the rendering
of a canonical positive exact decimal within the double range. -/
def canonicalRender (s : Str) : Prop :=
  ∃ w : Dec, 0 < w.man ∧ w.canonical ∧ roundsToInf w = false ∧ roundsToZero w = false ∧
    s = jsNumToString (.fin w)

theorem one_exp_canonical (k : Nat) : Dec.canonical ⟨1, k⟩ :=
  Or.inr (fun hdvd => by obtain ⟨c, hc⟩ := hdvd; have hc2 : (1:Int) = 10 * c := hc; omega)

theorem one_exp_bounds {k : Nat} (h : k ≤ 308) :
    roundsToInf ⟨1, k⟩ = false ∧ roundsToZero ⟨1, k⟩ = false := by
  have h10 : (1:Nat) ≤ 10 ^ k := Nat.one_le_pow k 10 (by norm_num)
  constructor
  · simp only [roundsToInf, decide_eq_false_iff_not, not_le]
    have hB : (2:Nat) ≤ 2 ^ 1024 - 2 ^ 970 := by decide
    have hprod : 2 * 1 ≤ ((2:Nat) ^ 1024 - 2 ^ 970) * 10 ^ k := Nat.mul_le_mul hB h10
    omega
  · simp only [roundsToZero, decide_eq_false_iff_not, not_le]
    have hk : (10:Nat) ^ k ≤ 10 ^ 308 := Nat.pow_le_pow_right (by norm_num) h
    have hbig : (10:Nat) ^ 308 < 2 ^ 1075 := by decide
    omega

theorem zero01_render : "0.01".toList = jsNumToString (.fin ⟨1, 2⟩) := by decide

theorem tpds_canonicalRender {x : Option JSValue} {o : Str}
    (h : toPositiveDecimalString x = some o) : canonicalRender o := by
  obtain ⟨w, hpos, hc, hInf, hZero, ho, _⟩ := tpds_shape h
  exact ⟨w, hpos, hc, hInf, hZero, ho⟩

theorem pow10Str_small_shape {k : Nat} (h : k ≤ 308) : canonicalRender (pow10Str k) := by
  obtain ⟨hInf, hZero⟩ := one_exp_bounds h
  exact ⟨⟨1, k⟩, Int.one_pos, one_exp_canonical k, hInf, hZero, by unfold pow10Str; rw [if_pos h]⟩

/-- Each successful stepSize is either the rendering of a positive
in-range value, or the overflow string 0 together with the precision
beyond 308 that produced it. -/
theorem stepChoice_shape {raw : RawContract} {s : Str}
    (h : stepChoice raw = .ok s) :
    canonicalRender s ∨
      ∃ n : Int, precisionOf raw.quantityPrecision = some n ∧ 308 < n ∧ s = ['0'] ∧
        toPositiveDecimalString raw.stepSize = none := by
  unfold stepChoice at h
  split at h
  · rename_i t ht
    injection h with h
    subst h
    exact Or.inl (tpds_canonicalRender ht)
  · rename_i hstep
    split at h
    · rename_i n hn
      injection h with h
      subst h
      by_cases h308 : n.toNat ≤ 308
      · exact Or.inl (pow10Str_small_shape h308)
      · refine Or.inr ⟨n, hn, ?_, pow10Str_big (by omega), hstep⟩
        have := precisionOf_nonneg hn
        omega
    · split at h
      · rename_i t ht
        injection h with h
        subst h
        exact Or.inl (tpds_canonicalRender ht)
      · simp at h

/-- Each tickSize is either the rendering of a positive in-range value,
or the overflow string 0 together with the precision beyond 308 that
produced it. -/
theorem tickChoice_shape (raw : RawContract) :
    canonicalRender (tickChoice raw) ∨
      ∃ n : Int, precisionOf raw.pricePrecision = some n ∧ 308 < n ∧
        tickChoice raw = ['0'] ∧ toPositiveDecimalString raw.tickSize = none := by
  cases ht : toPositiveDecimalString raw.tickSize with
  | some t =>
    have htc : tickChoice raw = t := by
      unfold tickChoice
      rw [ht]
      rfl
    rw [htc]
    exact Or.inl (tpds_canonicalRender ht)
  | none =>
    cases hn : precisionOf raw.pricePrecision with
    | some n =>
      have htc : tickChoice raw = pow10Str n.toNat := by
        unfold tickChoice
        rw [ht, hn]
        rfl
      rw [htc]
      by_cases h308 : n.toNat ≤ 308
      · exact Or.inl (pow10Str_small_shape h308)
      · refine Or.inr ⟨n, rfl, ?_, pow10Str_big (by omega), rfl⟩
        have := precisionOf_nonneg hn
        omega
    | none =>
      have htc : tickChoice raw = "0.01".toList := by
        unfold tickChoice
        rw [ht, hn]
        rfl
      rw [htc]
      exact Or.inl ⟨⟨1, 2⟩, Int.one_pos, one_exp_canonical 2, by decide, by decide, zero01_render⟩

theorem tpds_of_render {s : Str} (h : canonicalRender s) :
    toPositiveDecimalString (some (.str s)) = some s := by
  obtain ⟨w, hpos, hc, hInf, hZero, hs⟩ := h
  subst hs
  exact tpds_render hpos hc hInf hZero

/-- The fields of a successful normalization, read off the closed form. -/
theorem normalize_ok_fields {raw : RawContract} {f : NormalizedContractFilters}
    (h : normalizeContractFilters raw = .ok f) :
    stepChoice raw = .ok f.stepSize ∧
    f.minQty = (toPositiveDecimalString raw.tradeMinQuantity).getD f.stepSize ∧
    f.tickSize = tickChoice raw ∧
    f.pricePrecision = precisionOf raw.pricePrecision ∧
    f.quantityPrecision = precisionOf raw.quantityPrecision := by
  have hcl := normalize_closed raw
  rw [h] at hcl
  cases hss : stepChoice raw with
  | error m => rw [hss] at hcl; exact absurd hcl (by simp)
  | ok s =>
    rw [hss] at hcl
    injection hcl with hcl
    subst hcl
    exact ⟨rfl, rfl, rfl, rfl, rfl⟩

/-- C1 (amended): re-normalizing the output record preserves stepSize and
tickSize — when stepSize or tickSize is the overflow string 0 it is
re-derived as 0 from the quantityPrecision or pricePrecision the record
carries — but minQty collapses to the stepSize, because the output
carries the key minQty while the normalizer reads tradeMinQuantity. -/
theorem c1_renormalized_shape {raw : RawContract} {f : NormalizedContractFilters}
    (h : normalizeContractFilters raw = .ok f) :
    ∃ f2, normalizeContractFilters (asRaw f) = .ok f2 ∧
      f2.stepSize = f.stepSize ∧ f2.tickSize = f.tickSize ∧ f2.minQty = f.stepSize := by
  obtain ⟨hss, _, hts, hpp, hqp⟩ := normalize_ok_fields h
  have hss2 : stepChoice (asRaw f) = .ok f.stepSize := by
    rcases stepChoice_shape hss with hcr | ⟨n, hn, h308, hzero, _⟩
    · unfold stepChoice
      rw [show (asRaw f).stepSize = some (.str f.stepSize) from rfl, tpds_of_render hcr]
    · have hq2 : precisionOf (asRaw f).quantityPrecision = some n := by
        show precisionOf (f.quantityPrecision.map (fun k => .num (.fin ⟨k, 0⟩))) = some n
        rw [hqp, hn]
        exact precisionOf_num_int (by omega)
      unfold stepChoice
      rw [show (asRaw f).stepSize = some (.str f.stepSize) from rfl, hzero]
      rw [show toPositiveDecimalString (some (.str ['0'])) = none from by decide]
      rw [hq2]
      simp [pow10Str_big (show (308:Nat) < n.toNat from by omega)]
  have hts2 : tickChoice (asRaw f) = f.tickSize := by
    rcases tickChoice_shape raw with hcr | ⟨n, hn, h308, hzero, _⟩
    · rw [← hts] at hcr
      unfold tickChoice
      rw [show (asRaw f).tickSize = some (.str f.tickSize) from rfl, tpds_of_render hcr]
      rfl
    · have hp2 : precisionOf (asRaw f).pricePrecision = some n := by
        show precisionOf (f.pricePrecision.map (fun k => .num (.fin ⟨k, 0⟩))) = some n
        rw [hpp, hn]
        exact precisionOf_num_int (by omega)
      have htz : f.tickSize = ['0'] := by rw [hts, hzero]
      unfold tickChoice
      rw [show (asRaw f).tickSize = some (.str f.tickSize) from rfl, htz]
      rw [show toPositiveDecimalString (some (.str ['0'])) = none from by decide]
      rw [hp2]
      simp [pow10Str_big (show (308:Nat) < n.toNat from by omega)]
  refine ⟨⟨f.stepSize, f.stepSize, f.tickSize,
    precisionOf (asRaw f).pricePrecision, precisionOf (asRaw f).quantityPrecision⟩,
    ?_, rfl, rfl, rfl⟩
  rw [normalize_closed (asRaw f), hss2]
  show Except.ok (⟨f.stepSize,
    (toPositiveDecimalString (asRaw f).tradeMinQuantity).getD f.stepSize,
    tickChoice (asRaw f), precisionOf (asRaw f).pricePrecision,
    precisionOf (asRaw f).quantityPrecision⟩ : NormalizedContractFilters) = _
  rw [hts2]
  rfl

/-- The amended re-normalization property evaluated on the filter derived
from quantityPrecision 1. -/
theorem c1_renormalized_shape_witness :
    ∃ f2, normalizeContractFilters
        (asRaw ⟨"0.1".toList, "0.1".toList, "0.01".toList, none, some 1⟩) = .ok f2 ∧
      f2.stepSize = "0.1".toList ∧ f2.tickSize = "0.01".toList ∧ f2.minQty = "0.1".toList :=
  @c1_renormalized_shape ⟨none, some (.num (.fin ⟨1, 0⟩)), none, none, none, none, none⟩
    ⟨"0.1".toList, "0.1".toList, "0.01".toList, none, some 1⟩ (by decide)

/-- Idempotence on the output shape fails for minQty: normalizing
stepSize 2 with tradeMinQuantity 5 yields minQty 5, but re-normalizing the
output record yields minQty 2. -/
theorem c1_minQty_not_preserved :
    normalizeContractFilters ⟨some (.str ['2']), none, none, none, some (.str ['5']), none, none⟩ =
      .ok ⟨['2'], ['5'], "0.01".toList, none, none⟩ ∧
    normalizeContractFilters (asRaw ⟨['2'], ['5'], "0.01".toList, none, none⟩) =
      .ok ⟨['2'], ['2'], "0.01".toList, none, none⟩ ∧
    (['5'] : Str) ≠ ['2'] := by
  exact ⟨by decide, by decide, by decide⟩

/-- C2: the derived stepSize tier is not the exact decimal
`10 ^ -quantityPrecision` the claim asserts: at quantityPrecision 309 the
power of ten overflows the binary64 range, `1 / Math.pow(10, 309)` is
`1 / Infinity = 0`, and the program derives the string 0 — which, being
truthy, also does not fall through to the next tier. -/
theorem c2_overflow_bug :
    normalizeContractFilters ⟨none, some (.num (.fin ⟨309, 0⟩)), none, none, none, none, none⟩ =
      .ok ⟨['0'], ['0'], "0.01".toList, none, some 309⟩ ∧
    (['0'] : Str) ≠ jsNumToString (.fin ⟨1, 309⟩) := by
  exact ⟨by decide, by decide⟩

/-- C7: the tickSize tier is not `10 ^ -pricePrecision` as claimed: at
pricePrecision 309 the derived tickSize is the overflow string 0, not the
decimal of `10 ^ -309`. -/
theorem c7_overflow_bug :
    normalizeContractFilters ⟨some (.str ['1']), none, none, none, none, none,
        some (.num (.fin ⟨309, 0⟩))⟩ =
      .ok ⟨['1'], ['1'], ['0'], some 309, none⟩ ∧
    (['0'] : Str) ≠ jsNumToString (.fin ⟨1, 309⟩) := by
  exact ⟨by decide, by decide⟩

/-- C8: the positivity invariant fails: at quantityPrecision 309 the
produced record has stepSize and minQty equal to the string 0, which
parses to the number zero, not a strictly positive number. -/
theorem c8_overflow_bug :
    normalizeContractFilters ⟨none, some (.num (.fin ⟨309, 0⟩)), none, none, none, none, none⟩ =
      .ok ⟨['0'], ['0'], "0.01".toList, none, some 309⟩ ∧
    jsParse ['0'] = .fin ⟨0, 0⟩ := by
  exact ⟨by decide, by decide⟩

/-- C3 (amended): formatBingxError composes the text
"Failed to contact BingX: METHOD TARGET", appends an arrow and the
code-and-message detail when present, and appends the routing hint exactly
when the normalised request path equals the trade-order path — the
payload's code value plays no part in the hint decision. -/
theorem c3_hint_follows_path (method url : Option Str) (payload : Json)
    (requestPath : Option Str) :
    formatBingxError method url payload requestPath =
      bingxErrorCore method url payload requestPath ++
        (if hintPathOf url requestPath = PATH_ORDER then bingxHintText else []) := by
  simp only [formatBingxError, bingxErrorCore, hintPathOf]
  split_ifs <;> simp

/-- The hint is appended although the payload code is 0, not 100400: the
comparison the specification describes is never performed. -/
theorem c3_hint_with_zero_code :
    formatBingxError (some "POST".toList) none
        (.jobj (.jnum (.fin ⟨0, 0⟩)) .jundef .jundef .jundef) (some PATH_ORDER) =
      "Failed to contact BingX: POST /openApi/swap/v2/trade/order → 0".toList ++
        bingxHintText := by
  decide

/-- C4 (amended): when the open-orders step fails — transport error or
non-zero envelope code — fetchReport with includeOpenOrders behaves exactly
as without it: the error is swallowed and openOrders stays undefined. -/
theorem c4_open_orders_error_swallowed (net : Str → Option Str → Except Str Json)
    (symbol : Option Str) {e : Str} (h : openOrdersStep net symbol = .error e) :
    fetchReport net symbol true = fetchReport net symbol false := by
  unfold fetchReport
  rw [h]
  simp

/-- The swallowing behaviour at a concrete oracle whose open-orders request
fails while balance and positions succeed. -/
theorem c4_open_orders_error_swallowed_witness :
    fetchReport (fun p _ => if p = PATH_USER_OPEN_ORDERS then .error "boom".toList
        else .ok (.jobj (.jnum (.fin ⟨0, 0⟩)) .jundef .jundef .jundef)) none true =
      fetchReport (fun p _ => if p = PATH_USER_OPEN_ORDERS then .error "boom".toList
        else .ok (.jobj (.jnum (.fin ⟨0, 0⟩)) .jundef .jundef .jundef)) none false :=
  @c4_open_orders_error_swallowed
    (fun p _ => if p = PATH_USER_OPEN_ORDERS then .error "boom".toList
      else .ok (.jobj (.jnum (.fin ⟨0, 0⟩)) .jundef .jundef .jundef))
    none "boom".toList (by decide)

/-- A failing open-orders request after which fetchReport nevertheless
returns a successful snapshot: the error is silently discarded rather than
surfaced. -/
theorem c4_error_not_surfaced :
    openOrdersStep (fun p _ => if p = PATH_USER_OPEN_ORDERS then .error "down".toList
        else .ok (.jobj (.jnum (.fin ⟨0, 0⟩)) .jundef .jundef .jundef)) none =
      .error "down".toList ∧
    fetchReport (fun p _ => if p = PATH_USER_OPEN_ORDERS then .error "down".toList
        else .ok (.jobj (.jnum (.fin ⟨0, 0⟩)) .jundef .jundef .jundef)) none true =
      .ok ⟨.jnull, .jnull, .jundef⟩ := by
  exact ⟨by decide, by decide⟩

/-- C5 (amended): assertSuccess succeeds exactly when the payload is an
object whose code field is undefined, null, a finite number of value zero,
or the string 0; any other object code is a business failure whose
description is msg, else message, else the String form of code; a
non-object payload is an invalid-response failure. -/
theorem c5_envelope_classification (endpoint : Str) (payload : Json) :
    ((∃ env, assertSuccess endpoint payload = .ok env) ↔
      ∃ code msg message data, payload = .jobj code msg message data ∧
        (code = .jundef ∨ code = .jnull ∨
          (∃ d, code = .jnum (.fin d) ∧ d.man = 0) ∨ code = .jstr ['0'])) ∧
    (∀ code msg message data, payload = .jobj code msg message data →
      assertSuccess.codeSucceeds code = false →
      assertSuccess endpoint payload = .error (endpoint ++ " error: ".toList ++
        jsonToString (jsCoalesce msg (jsCoalesce message (.jstr (jsonToString code)))))) ∧
    ((∀ code msg message data, payload ≠ .jobj code msg message data) →
      assertSuccess endpoint payload =
        .error (endpoint ++ " returned an invalid response".toList)) := by
  have hiff : ∀ c : Json, assertSuccess.codeSucceeds c = true ↔
      (c = .jundef ∨ c = .jnull ∨
        (∃ d, c = .jnum (.fin d) ∧ d.man = 0) ∨ c = .jstr ['0']) := by
    intro c
    cases c with
    | jundef => simp [assertSuccess.codeSucceeds]
    | jnull => simp [assertSuccess.codeSucceeds]
    | jnum j =>
      cases j with
      | nan => simp [assertSuccess.codeSucceeds]
      | inf b => simp [assertSuccess.codeSucceeds]
      | fin d => simp [assertSuccess.codeSucceeds]
    | jstr s => simp [assertSuccess.codeSucceeds]
    | jbool b => simp [assertSuccess.codeSucceeds]
    | jarr => simp [assertSuccess.codeSucceeds]
    | jobj a b c d => simp [assertSuccess.codeSucceeds]
  refine ⟨?_, ?_, ?_⟩
  · constructor
    · rintro ⟨env, henv⟩
      cases payload with
      | jobj code msg message data =>
        simp only [assertSuccess] at henv
        split_ifs at henv with hcode
        exact ⟨code, msg, message, data, rfl, (hiff code).mp hcode⟩
      | jundef => simp [assertSuccess] at henv
      | jnull => simp [assertSuccess] at henv
      | jnum j => simp [assertSuccess] at henv
      | jstr s => simp [assertSuccess] at henv
      | jbool b => simp [assertSuccess] at henv
      | jarr => simp [assertSuccess] at henv
    · rintro ⟨code, msg, message, data, hp, hcond⟩
      subst hp
      refine ⟨.jobj code msg message data, ?_⟩
      simp only [assertSuccess]
      rw [if_pos ((hiff code).mpr hcond)]
  · intro code msg message data hp hfail
    subst hp
    simp only [assertSuccess]
    rw [if_neg (by simp [hfail])]
  · intro hno
    cases payload with
    | jobj code msg message data => exact absurd rfl (hno code msg message data)
    | jundef => rfl
    | jnull => rfl
    | jnum j => rfl
    | jstr s => rfl
    | jbool b => rfl
    | jarr => rfl

/-- An object payload whose code is null is classified as success, although
null is neither an absent code nor 0 nor the string 0. -/
theorem c5_null_code_succeeds :
    assertSuccess "balance".toList (.jobj .jnull (.jstr "x".toList) .jundef .jundef) =
      .ok (.jobj .jnull (.jstr "x".toList) .jundef .jundef) := by
  decide

/-- Association-list lookup only depends on the set of bindings when the
keys are distinct. -/
theorem lookup_eq_of_perm (k : Str) :
    ∀ {p1 p2 : List (Str × Str)}, p1.Perm p2 → (p1.map Prod.fst).Nodup →
      p1.lookup k = p2.lookup k := by
  intro p1 p2 hperm
  induction hperm with
  | nil => intro _; rfl
  | cons x h ih =>
    intro hnd
    obtain ⟨xk, xv⟩ := x
    simp only [List.map_cons, List.nodup_cons] at hnd
    simp only [List.lookup]
    split
    · rfl
    · exact ih hnd.2
  | swap x y t =>
    intro hnd
    obtain ⟨xk, xv⟩ := x
    obtain ⟨yk, yv⟩ := y
    simp only [List.map_cons, List.nodup_cons, List.mem_cons] at hnd
    have hne : yk ≠ xk := fun he => hnd.1 (Or.inl he)
    by_cases h1 : k = xk
    · subst h1
      have hb1 : (k == k) = true := beq_self_eq_true k
      have hb2 : (k == yk) = false := beq_eq_false_iff_ne.mpr (Ne.symm hne)
      simp [List.lookup, hb1, hb2]
    · by_cases h2 : k = yk
      · subst h2
        have hb1 : (k == xk) = false := beq_eq_false_iff_ne.mpr h1
        have hb2 : (k == k) = true := beq_self_eq_true k
        simp [List.lookup, hb1, hb2]
      · have hb1 : (k == xk) = false := beq_eq_false_iff_ne.mpr h1
        have hb2 : (k == yk) = false := beq_eq_false_iff_ne.mpr h2
        simp [List.lookup, hb1, hb2]
  | trans h1 h2 ih1 ih2 =>
    intro hnd
    rw [ih1 hnd, ih2 ((h1.map Prod.fst).nodup hnd)]

/-- C6: signQuery sorts the keys lexicographically, joins the key=value
pairs with ampersands and appends the hex HMAC of that query under the
secret; getSigned signs the parameters with recvWindow and the timestamp
injected; and for two parameter maps with the same distinct-key bindings
in different insertion orders the output is identical. -/
theorem c6_signQuery_canonical (hmacHex : Str → Str → Str) (secret : Str)
    (p1 p2 : List (Str × Str)) (path : Str) (params : List (Str × Option JSValue))
    (now : Dec) :
    (signQuery hmacHex secret p1 =
      (let q := List.intercalate ['&']
        (((p1.map Prod.fst).insertionSort (fun a b => a ≤ b)).map
          (fun k => k ++ '=' :: ((p1.lookup k).getD [])));
       q ++ "&signature=".toList ++ hmacHex secret q) ∧
     ((p1.map Prod.fst).insertionSort (fun a b => a ≤ b)).Sorted (fun a b => a ≤ b) ∧
     ((p1.map Prod.fst).insertionSort (fun a b => a ≤ b)).Perm (p1.map Prod.fst)) ∧
    (getSignedCore hmacHex secret path params now).1 =
      BINGX_BASE ++ path ++ '?' :: signQuery hmacHex secret (normaliseParams (params ++
        [("recvWindow".toList, some (.str RECV_WINDOW)),
         ("timestamp".toList, some (.num (.fin now)))])) ∧
    (p1.Perm p2 → (p1.map Prod.fst).Nodup →
      signQuery hmacHex secret p1 = signQuery hmacHex secret p2) := by
  refine ⟨⟨rfl, List.sorted_insertionSort _ _, List.perm_insertionSort _ _⟩, rfl, ?_⟩
  intro hperm hnd
  have hkeys : ((p1.map Prod.fst).insertionSort (fun a b => a ≤ b)) =
      ((p2.map Prod.fst).insertionSort (fun a b => a ≤ b)) := by
    refine List.eq_of_perm_of_sorted ?_ (List.sorted_insertionSort _ _)
      (List.sorted_insertionSort _ _)
    exact ((List.perm_insertionSort _ _).trans (hperm.map Prod.fst)).trans
      (List.perm_insertionSort _ _).symm
  unfold signQuery
  rw [hkeys]
  have hlook : ∀ k, p1.lookup k = p2.lookup k := fun k => lookup_eq_of_perm k hperm hnd
  simp only [hlook]

theorem startsWithStr_self_append (p x : Str) : startsWithStr p (p ++ x) = true := by
  induction p with
  | nil => rfl
  | cons c t ih => simp [startsWithStr, ih]

theorem startsWith_ne_head {c1 c2 : Char} (p s : Str) (h : c1 ≠ c2) :
    startsWithStr (c1 :: p) (c2 :: s) = false := by
  simp [startsWithStr, h]

theorem startsWith_quantity_false (s : Str) {c : Char} {t : Str} (hs : s = c :: t)
    (hc : c ≠ 'Q') : ¬ startsWithStr "Quantity: ".toList s = true := by
  subst hs
  intro h
  rw [show ("Quantity: ".toList : Str) = 'Q' :: "uantity: ".toList from rfl,
    startsWith_ne_head _ _ (Ne.symm hc)] at h
  exact Bool.noConfusion h

/-- Every emoji the builder may choose is a single character, and not one
that could begin a Margin or Quantity line. -/
theorem emoji_first (intent : Str) :
    ∃ c rest, emojiAndTitle intent = ([c], rest) ∧ c ≠ 'Q' ∧ c ≠ 'M' := by
  simp only [emojiAndTitle]
  split_ifs <;> exact ⟨_, _, rfl, by decide, by decide⟩

/-- A line of the signal message starting with Quantity can only be the
quantity line, which exists exactly when marginUSDT is absent and a
nonempty quantity is supplied. -/
theorem quantity_line_cases (opts : SignalOpts) (now : JSDate) (line : Str)
    (hm : line ∈ buildSignalLines opts now)
    (hq : startsWithStr "Quantity: ".toList line = true) :
    opts.marginUSDT = none ∧
      ∃ q, opts.quantity = some q ∧ q ≠ [] ∧ line = "Quantity: ".toList ++ q := by
  obtain ⟨ec, erest, hemo, hecQ, hecM⟩ := emoji_first opts.intent
  unfold buildSignalLines at hm
  rw [hemo] at hm
  cases hmu : opts.marginUSDT with
  | some m =>
    exfalso
    rw [hmu] at hm
    cases hlv : opts.leverage with
    | some l =>
      rw [hlv] at hm
      simp only [List.append_assoc, List.mem_append, List.mem_cons, List.mem_singleton,
        List.not_mem_nil, or_false, List.nil_append, false_or] at hm
      rcases hm with (h | h | h) | h | h | h | h | h | h
      all_goals subst h
      all_goals first
        | rfl
        | exact absurd hq (startsWith_quantity_false _ rfl hecQ)
        | exact absurd hq (by decide)
        | exact absurd hq (startsWith_quantity_false _ rfl (by decide))
        | exact absurd hq (by split <;> exact startsWith_quantity_false _ rfl (by decide))
    | none =>
      rw [hlv] at hm
      simp only [List.append_assoc, List.mem_append, List.mem_cons, List.mem_singleton,
        List.not_mem_nil, or_false, List.nil_append, false_or] at hm
      rcases hm with (h | h | h) | h | h | h | h | h
      all_goals subst h
      all_goals first
        | rfl
        | exact absurd hq (startsWith_quantity_false _ rfl hecQ)
        | exact absurd hq (by decide)
        | exact absurd hq (startsWith_quantity_false _ rfl (by decide))
        | exact absurd hq (by split <;> exact startsWith_quantity_false _ rfl (by decide))
  | none =>
    rw [hmu] at hm
    refine ⟨rfl, ?_⟩
    cases hqu : opts.quantity with
    | none =>
      exfalso
      rw [hqu] at hm
      cases hlv : opts.leverage with
      | some l =>
        rw [hlv] at hm
        simp only [List.append_assoc, List.mem_append, List.mem_cons, List.mem_singleton,
          List.not_mem_nil, or_false, List.nil_append, false_or] at hm
        rcases hm with (h | h | h) | h | h | h | h | h
        all_goals subst h
        all_goals first
          | rfl
          | exact absurd hq (startsWith_quantity_false _ rfl hecQ)
          | exact absurd hq (by decide)
          | exact absurd hq (startsWith_quantity_false _ rfl (by decide))
          | exact absurd hq (by split <;> exact startsWith_quantity_false _ rfl (by decide))
      | none =>
        rw [hlv] at hm
        simp only [List.append_assoc, List.mem_append, List.mem_cons, List.mem_singleton,
          List.not_mem_nil, or_false, List.nil_append, false_or] at hm
        rcases hm with (h | h | h) | h | h | h | h
        all_goals subst h
        all_goals first
          | rfl
          | exact absurd hq (startsWith_quantity_false _ rfl hecQ)
          | exact absurd hq (by decide)
          | exact absurd hq (startsWith_quantity_false _ rfl (by decide))
          | exact absurd hq (by split <;> exact startsWith_quantity_false _ rfl (by decide))
    | some q =>
      rw [hqu] at hm
      simp only [] at hm
      by_cases hqe : q.isEmpty
      · exfalso
        rw [if_pos hqe] at hm
        cases hlv : opts.leverage with
        | some l =>
          rw [hlv] at hm
          simp only [List.append_assoc, List.mem_append, List.mem_cons, List.mem_singleton,
            List.not_mem_nil, or_false, List.nil_append, false_or] at hm
          rcases hm with (h | h | h) | h | h | h | h | h
          all_goals subst h
          all_goals first
            | rfl
            | exact absurd hq (startsWith_quantity_false _ rfl hecQ)
            | exact absurd hq (by decide)
            | exact absurd hq (startsWith_quantity_false _ rfl (by decide))
            | exact absurd hq (by split <;> exact startsWith_quantity_false _ rfl (by decide))
        | none =>
          rw [hlv] at hm
          simp only [List.append_assoc, List.mem_append, List.mem_cons, List.mem_singleton,
            List.not_mem_nil, or_false, List.nil_append, false_or] at hm
          rcases hm with (h | h | h) | h | h | h | h
          all_goals subst h
          all_goals first
            | rfl
            | exact absurd hq (startsWith_quantity_false _ rfl hecQ)
            | exact absurd hq (by decide)
            | exact absurd hq (startsWith_quantity_false _ rfl (by decide))
            | exact absurd hq (by split <;> exact startsWith_quantity_false _ rfl (by decide))
      · refine ⟨q, rfl, by simpa [List.isEmpty_iff] using hqe, ?_⟩
        rw [if_neg hqe] at hm
        cases hlv : opts.leverage with
        | some l =>
          rw [hlv] at hm
          simp only [List.append_assoc, List.mem_append, List.mem_cons, List.mem_singleton,
            List.not_mem_nil, or_false, List.nil_append, false_or] at hm
          rcases hm with (h | h | h) | h | h | h | h | h | h
          all_goals subst h
          all_goals first
            | rfl
            | exact absurd hq (startsWith_quantity_false _ rfl hecQ)
            | exact absurd hq (by decide)
            | exact absurd hq (startsWith_quantity_false _ rfl (by decide))
            | exact absurd hq (by split <;> exact startsWith_quantity_false _ rfl (by decide))
        | none =>
          rw [hlv] at hm
          simp only [List.append_assoc, List.mem_append, List.mem_cons, List.mem_singleton,
            List.not_mem_nil, or_false, List.nil_append, false_or] at hm
          rcases hm with (h | h | h) | h | h | h | h | h
          all_goals subst h
          all_goals first
            | rfl
            | exact absurd hq (startsWith_quantity_false _ rfl hecQ)
            | exact absurd hq (by decide)
            | exact absurd hq (startsWith_quantity_false _ rfl (by decide))
            | exact absurd hq (by split <;> exact startsWith_quantity_false _ rfl (by decide))

theorem margin_line_mem {opts : SignalOpts} (now : JSDate) {m : JNum}
    (hm : opts.marginUSDT = some m) :
    ("Margin: ".toList ++ (formatNumber (.num m) ++ " USDT".toList)) ∈
      buildSignalLines opts now := by
  unfold buildSignalLines
  rw [hm]
  simp

theorem quantity_line_mem {opts : SignalOpts} (now : JSDate) {q : Str}
    (h1 : opts.marginUSDT = none) (h2 : opts.quantity = some q) (h3 : q ≠ []) :
    ("Quantity: ".toList ++ q) ∈ buildSignalLines opts now := by
  have hne : ¬ q.isEmpty = true := fun hie => h3 (by simpa using hie)
  unfold buildSignalLines
  rw [h1, h2]
  simp only []
  rw [if_neg hne]
  simp

/-- C10: when marginUSDT is a number the message carries a Margin line and
no Quantity line, even when a quantity string is also supplied; a Quantity
line appears exactly when marginUSDT is absent and a nonempty quantity is
present — margin takes precedence over quantity. -/
theorem c10_margin_over_quantity (opts : SignalOpts) (now : JSDate) :
    (∀ m, opts.marginUSDT = some m →
      (∃ line ∈ buildSignalLines opts now, startsWithStr "Margin: ".toList line = true) ∧
      (∀ line ∈ buildSignalLines opts now,
        startsWithStr "Quantity: ".toList line = false)) ∧
    ((∃ line ∈ buildSignalLines opts now, startsWithStr "Quantity: ".toList line = true) ↔
      (opts.marginUSDT = none ∧ ∃ q, opts.quantity = some q ∧ q ≠ [])) := by
  constructor
  · intro m hm
    constructor
    · exact ⟨_, margin_line_mem now hm, startsWithStr_self_append _ _⟩
    · intro line hline
      by_cases hq : startsWithStr "Quantity: ".toList line = true
      · obtain ⟨hnone, _⟩ := quantity_line_cases opts now line hline hq
        rw [hm] at hnone
        exact Option.noConfusion hnone
      · simpa using hq
  · constructor
    · rintro ⟨line, hline, hq⟩
      obtain ⟨h1, q, h2, h3, _⟩ := quantity_line_cases opts now line hline hq
      exact ⟨h1, q, h2, h3⟩
    · rintro ⟨h1, q, h2, h3⟩
      exact ⟨_, quantity_line_mem now h1 h2 h3, startsWithStr_self_append _ _⟩

theorem isHexDig_ci {a b : Char} (h : a.toLower = b.toLower) : isHexDig a = isHexDig b := by
  simp [isHexDig, h]

theorem dropCI_refl : ∀ (p x : Str), dropCI p (p ++ x) = some x := by
  intro p x
  induction p with
  | nil => rfl
  | cons c ps ih => simp [dropCI, ih]

theorem tryMatch_head_not_s {c : Char} (hc : ¬ c.toLower = 's'.toLower) (t : Str) :
    tryMatch (c :: t) = none := by
  unfold tryMatch
  rw [show dropCI sigPat (c :: t) =
    (if c.toLower = 's'.toLower then dropCI "ignature=".toList t else none) from rfl]
  rw [if_neg hc]

theorem tryMatch_after_nonhex {d : Char} (hd : isHexDig d = false) (r : Str) :
    tryMatch (sigPat ++ (d :: r)) = none := by
  unfold tryMatch
  rw [dropCI_refl]
  simp [hd]

/-- Scanning the inserted redaction marker finds no new match: the marker
itself is followed by <, and none of its proper suffixes can begin one. -/
theorem hasSigMatch_chunk (X : Str) :
    hasSigMatch (redactedChunk ++ X) = hasSigMatch X := by
  show hasSigMatch ('s' :: 'i' :: 'g' :: 'n' :: 'a' :: 't' :: 'u' :: 'r' :: 'e' :: '=' :: '<' :: 'r' :: 'e' :: 'd' :: 'a' :: 'c' :: 't' :: 'e' :: 'd' :: '>' :: X) = hasSigMatch X
  have e0 : tryMatch ('s' :: 'i' :: 'g' :: 'n' :: 'a' :: 't' :: 'u' :: 'r' :: 'e' :: '=' :: '<' :: 'r' :: 'e' :: 'd' :: 'a' :: 'c' :: 't' :: 'e' :: 'd' :: '>' :: X) = none :=
    tryMatch_after_nonhex (by decide) ('r' :: 'e' :: 'd' :: 'a' :: 'c' :: 't' :: 'e' :: 'd' :: '>' :: X)
  have e1 : tryMatch ('i' :: 'g' :: 'n' :: 'a' :: 't' :: 'u' :: 'r' :: 'e' :: '=' :: '<' :: 'r' :: 'e' :: 'd' :: 'a' :: 'c' :: 't' :: 'e' :: 'd' :: '>' :: X) = none :=
    tryMatch_head_not_s (by decide) _
  have e2 : tryMatch ('g' :: 'n' :: 'a' :: 't' :: 'u' :: 'r' :: 'e' :: '=' :: '<' :: 'r' :: 'e' :: 'd' :: 'a' :: 'c' :: 't' :: 'e' :: 'd' :: '>' :: X) = none :=
    tryMatch_head_not_s (by decide) _
  have e3 : tryMatch ('n' :: 'a' :: 't' :: 'u' :: 'r' :: 'e' :: '=' :: '<' :: 'r' :: 'e' :: 'd' :: 'a' :: 'c' :: 't' :: 'e' :: 'd' :: '>' :: X) = none :=
    tryMatch_head_not_s (by decide) _
  have e4 : tryMatch ('a' :: 't' :: 'u' :: 'r' :: 'e' :: '=' :: '<' :: 'r' :: 'e' :: 'd' :: 'a' :: 'c' :: 't' :: 'e' :: 'd' :: '>' :: X) = none :=
    tryMatch_head_not_s (by decide) _
  have e5 : tryMatch ('t' :: 'u' :: 'r' :: 'e' :: '=' :: '<' :: 'r' :: 'e' :: 'd' :: 'a' :: 'c' :: 't' :: 'e' :: 'd' :: '>' :: X) = none :=
    tryMatch_head_not_s (by decide) _
  have e6 : tryMatch ('u' :: 'r' :: 'e' :: '=' :: '<' :: 'r' :: 'e' :: 'd' :: 'a' :: 'c' :: 't' :: 'e' :: 'd' :: '>' :: X) = none :=
    tryMatch_head_not_s (by decide) _
  have e7 : tryMatch ('r' :: 'e' :: '=' :: '<' :: 'r' :: 'e' :: 'd' :: 'a' :: 'c' :: 't' :: 'e' :: 'd' :: '>' :: X) = none :=
    tryMatch_head_not_s (by decide) _
  have e8 : tryMatch ('e' :: '=' :: '<' :: 'r' :: 'e' :: 'd' :: 'a' :: 'c' :: 't' :: 'e' :: 'd' :: '>' :: X) = none :=
    tryMatch_head_not_s (by decide) _
  have e9 : tryMatch ('=' :: '<' :: 'r' :: 'e' :: 'd' :: 'a' :: 'c' :: 't' :: 'e' :: 'd' :: '>' :: X) = none :=
    tryMatch_head_not_s (by decide) _
  have e10 : tryMatch ('<' :: 'r' :: 'e' :: 'd' :: 'a' :: 'c' :: 't' :: 'e' :: 'd' :: '>' :: X) = none :=
    tryMatch_head_not_s (by decide) _
  have e11 : tryMatch ('r' :: 'e' :: 'd' :: 'a' :: 'c' :: 't' :: 'e' :: 'd' :: '>' :: X) = none :=
    tryMatch_head_not_s (by decide) _
  have e12 : tryMatch ('e' :: 'd' :: 'a' :: 'c' :: 't' :: 'e' :: 'd' :: '>' :: X) = none :=
    tryMatch_head_not_s (by decide) _
  have e13 : tryMatch ('d' :: 'a' :: 'c' :: 't' :: 'e' :: 'd' :: '>' :: X) = none :=
    tryMatch_head_not_s (by decide) _
  have e14 : tryMatch ('a' :: 'c' :: 't' :: 'e' :: 'd' :: '>' :: X) = none :=
    tryMatch_head_not_s (by decide) _
  have e15 : tryMatch ('c' :: 't' :: 'e' :: 'd' :: '>' :: X) = none :=
    tryMatch_head_not_s (by decide) _
  have e16 : tryMatch ('t' :: 'e' :: 'd' :: '>' :: X) = none :=
    tryMatch_head_not_s (by decide) _
  have e17 : tryMatch ('e' :: 'd' :: '>' :: X) = none :=
    tryMatch_head_not_s (by decide) _
  have e18 : tryMatch ('d' :: '>' :: X) = none :=
    tryMatch_head_not_s (by decide) _
  have e19 : tryMatch ('>' :: X) = none :=
    tryMatch_head_not_s (by decide) _
  simp only [hasSigMatch, e0, e1, e2, e3, e4, e5, e6, e7, e8, e9, e10, e11, e12, e13, e14, e15, e16, e17, e18, e19, Option.isSome_none, Bool.false_or]

theorem redact_eq_some {cs rest : Str} (h : tryMatch cs = some rest) :
    redactSignature cs = redactedChunk ++ redactSignature rest := by
  rw [redactSignature]
  split
  · rename_i rest2 h2
    rw [h2] at h
    injection h with h
    subst h
    rfl
  · rename_i h2
    rw [h2] at h
    exact Option.noConfusion h

theorem redact_eq_nil : redactSignature [] = [] := by
  rw [redactSignature]
  split
  · rename_i rest2 h2
    have hn : tryMatch [] = none := rfl
    rw [hn] at h2
    exact Option.noConfusion h2
  · rfl

theorem redact_eq_cons {c : Char} {t : Str} (h : tryMatch (c :: t) = none) :
    redactSignature (c :: t) = c :: redactSignature t := by
  rw [redactSignature]
  split
  · rename_i rest2 h2
    rw [h] at h2
    exact Option.noConfusion h2
  · rfl

theorem dropCI_decomp : ∀ (p cs r : Str), dropCI p cs = some r →
    ∃ pre, cs = pre ++ r ∧ List.Forall₂ (fun a b => a.toLower = b.toLower) p pre := by
  intro p
  induction p with
  | nil =>
    intro cs r h
    simp [dropCI] at h
    exact ⟨[], by simp [h], List.Forall₂.nil⟩
  | cons pc ps ih =>
    intro cs r h
    cases cs with
    | nil => simp [dropCI] at h
    | cons c ct =>
      rw [show dropCI (pc :: ps) (c :: ct) =
        (if c.toLower = pc.toLower then dropCI ps ct else none) from rfl] at h
      split_ifs at h with hc
      obtain ⟨pre, hct, hf⟩ := ih ct r h
      exact ⟨c :: pre, by simp [hct], List.Forall₂.cons hc.symm hf⟩

theorem chunkSafe_sync : ∀ {p pre : Str},
    List.Forall₂ (fun a b => a.toLower = b.toLower) p pre →
    ∀ (n : Nat) (X Y : Str), chunkSafe n (pre ++ X) (p ++ '<' :: Y) := by
  intro p pre hf
  induction hf with
  | nil =>
    intro n X Y
    cases n with
    | zero => trivial
    | succ m => exact Or.inr (Or.inl ⟨Y, rfl⟩)
  | cons hab hf2 ih =>
    rename_i a b p2 pre2
    intro n X Y
    cases n with
    | zero => trivial
    | succ m =>
      exact Or.inr (Or.inr ⟨b, a, pre2 ++ X, p2 ++ '<' :: Y, rfl, rfl, hab.symm, ih m X Y⟩)

theorem chunkSafe_redact : ∀ (n : Nat) (t : Str), chunkSafe n t (redactSignature t) := by
  suffices H : ∀ (N : Nat) (t : Str), t.length ≤ N → ∀ n, chunkSafe n t (redactSignature t) by
    intro n t
    exact H t.length t le_rfl n
  intro N
  induction N with
  | zero =>
    intro t ht n
    have hnil : t = [] := by
      cases t with
      | nil => rfl
      | cons a b => simp at ht
    subst hnil
    rw [redact_eq_nil]
    cases n with
    | zero => trivial
    | succ m => exact Or.inl ⟨rfl, rfl⟩
  | succ M ih =>
    intro t ht n
    cases hm : tryMatch t with
    | some rest =>
      rw [redact_eq_some hm]
      have hstruct : ∃ d r, dropCI sigPat t = some (d :: r) ∧ isHexDig d = true := by
        unfold tryMatch at hm
        cases hdc : dropCI sigPat t with
        | none => rw [hdc] at hm; exact Option.noConfusion hm
        | some r0 =>
          rw [hdc] at hm
          cases r0 with
          | nil => exact Option.noConfusion hm
          | cons d rr =>
            simp only [] at hm
            split_ifs at hm with hhex
            exact ⟨d, rr, rfl, hhex⟩
      obtain ⟨d, r, hdc, hhex⟩ := hstruct
      obtain ⟨pre, hteq, hf⟩ := dropCI_decomp sigPat t (d :: r) hdc
      rw [hteq]
      exact chunkSafe_sync hf n (d :: r) ("redacted>".toList ++ redactSignature rest)
    | none =>
      cases t with
      | nil =>
        rw [redact_eq_nil]
        cases n with
        | zero => trivial
        | succ m => exact Or.inl ⟨rfl, rfl⟩
      | cons c t2 =>
        rw [redact_eq_cons hm]
        cases n with
        | zero => trivial
        | succ m =>
          exact Or.inr (Or.inr ⟨c, c, t2, redactSignature t2, rfl, rfl, rfl,
            ih t2 (by simp at ht; omega) m⟩)

theorem dropCI_transfer : ∀ (p : Str) (n : Nat) (a b : Str), p.length < n →
    (∀ pc ∈ p, ¬ pc.toLower = '<') → chunkSafe n a b →
    ∀ (d : Char) (r : Str), dropCI p b = some (d :: r) → isHexDig d = true →
    ∃ d2 r2, dropCI p a = some (d2 :: r2) ∧ isHexDig d2 = true := by
  intro p
  induction p with
  | nil =>
    intro n a b hn hp hs d r hb hd
    simp [dropCI] at hb
    cases n with
    | zero => omega
    | succ m =>
      rcases hs with ⟨ha, hbnil⟩ | ⟨tb, hbl⟩ | ⟨ca, cb, ta, tb, ha, hbc, hci, _⟩
      · rw [hbnil] at hb
        exact absurd hb (by simp)
      · rw [hbl] at hb
        injection hb with hb1 hb2
        rw [← hb1] at hd
        exact absurd hd (by decide)
      · subst ha
        rw [hbc] at hb
        injection hb with hb1 hb2
        refine ⟨ca, ta, by simp [dropCI], ?_⟩
        rw [isHexDig_ci hci, hb1]
        exact hd
  | cons pc ps ih =>
    intro n a b hn hp hs d r hb hd
    cases b with
    | nil => simp [dropCI] at hb
    | cons cb tb =>
      rw [show dropCI (pc :: ps) (cb :: tb) =
        (if cb.toLower = pc.toLower then dropCI ps tb else none) from rfl] at hb
      split_ifs at hb with hcb
      cases n with
      | zero => omega
      | succ m =>
        rcases hs with ⟨ha, hbnil⟩ | ⟨tb2, hbl⟩ | ⟨ca, cb2, ta, tb2, ha, hbc, hci, hrec⟩
        · exact absurd hbnil (by simp)
        · injection hbl with hb1 hb2
          have hlt : pc.toLower = '<' := by
            rw [← hcb, hb1]
            decide
          exact absurd hlt (hp pc (by simp))
        · subst ha
          injection hbc with hb1 hb2
          subst hb1
          subst hb2
          have hca : ca.toLower = pc.toLower := by rw [hci, hcb]
          obtain ⟨d2, r2, hda, hd2⟩ := ih m ta tb (by simp at hn; omega)
            (fun pc2 hm2 => hp pc2 (List.mem_cons_of_mem _ hm2)) hrec d r hb hd
          refine ⟨d2, r2, ?_, hd2⟩
          rw [show dropCI (pc :: ps) (ca :: ta) =
            (if ca.toLower = pc.toLower then dropCI ps ta else none) from rfl,
            if_pos hca, hda]

theorem tryMatch_transfer {a b : Str} (hs : chunkSafe 11 a b) (ha : tryMatch a = none) :
    tryMatch b = none := by
  cases hb : tryMatch b with
  | none => rfl
  | some r =>
    exfalso
    have hstruct : ∃ d rr, dropCI sigPat b = some (d :: rr) ∧ isHexDig d = true := by
      unfold tryMatch at hb
      cases hdc : dropCI sigPat b with
      | none => rw [hdc] at hb; exact Option.noConfusion hb
      | some r0 =>
        rw [hdc] at hb
        cases r0 with
        | nil => exact Option.noConfusion hb
        | cons d rr =>
          simp only [] at hb
          split_ifs at hb with hhex
          exact ⟨d, rr, rfl, hhex⟩
    obtain ⟨d, rr, hdc, hhex⟩ := hstruct
    obtain ⟨d2, r2, hda, hd2⟩ :=
      dropCI_transfer sigPat 11 a b (by decide) (by decide) hs d rr hdc hhex
    unfold tryMatch at ha
    rw [hda] at ha
    simp [hd2] at ha

/-- No occurrence of the redaction pattern survives redactSignature. -/
theorem hasSigMatch_redact (s : Str) : hasSigMatch (redactSignature s) = false := by
  suffices H : ∀ (N : Nat) (s : Str), s.length ≤ N → hasSigMatch (redactSignature s) = false from
    H s.length s le_rfl
  intro N
  induction N with
  | zero =>
    intro s hs
    have hnil : s = [] := by
      cases s with
      | nil => rfl
      | cons a b => simp at hs
    subst hnil
    rw [redact_eq_nil]
    rfl
  | succ M ih =>
    intro s hs
    cases hm : tryMatch s with
    | some rest =>
      rw [redact_eq_some hm, hasSigMatch_chunk]
      have hlen := tryMatch_length hm
      exact ih rest (by omega)
    | none =>
      cases s with
      | nil =>
        rw [redact_eq_nil]
        rfl
      | cons c t =>
        rw [redact_eq_cons hm]
        show ((tryMatch (c :: redactSignature t)).isSome || hasSigMatch (redactSignature t)) = false
        have hsafe : chunkSafe 11 (c :: t) (c :: redactSignature t) :=
          Or.inr (Or.inr ⟨c, c, t, redactSignature t, rfl, rfl, rfl, chunkSafe_redact 10 t⟩)
        rw [tryMatch_transfer hsafe hm]
        simp [ih t (by simp at hs; omega)]

/-- C9: for every signed request, the URL getSigned logs has the
signature value redacted — the logged string contains no occurrence of
signature= followed by a hexadecimal digit — and it is exactly the
redaction of the sent URL, while the URL sent to the exchange retains the
full signature appended after signature=. -/
theorem c9_logged_url_redacted (hmacHex : Str → Str → Str) (secret path : Str)
    (params : List (Str × Option JSValue)) (now : Dec) :
    hasSigMatch (getSignedCore hmacHex secret path params now).2 = false ∧
    (getSignedCore hmacHex secret path params now).2 =
      redactSignature (getSignedCore hmacHex secret path params now).1 ∧
    ∃ q, (getSignedCore hmacHex secret path params now).1 =
        BINGX_BASE ++ path ++ '?' :: (q ++ "&signature=".toList ++ hmacHex secret q) :=
  ⟨hasSigMatch_redact _, rfl, ⟨_, rfl⟩⟩
